import Mathlib

/-!
Verification of the gohttpc HTTP client framework (relychan/gohttpc).

This file shallowly embeds the parts of the Go source that the checked
properties are about:

* `httpconfig/retry.go` — the retry decision function `retryHandleFunc`;
* `retry.go` — `RetryPolicy.GetRetryHTTPStatus` and its default status list;
* `request.go` — the retry-loop wrapper `executeWithRetries` (its `operation`
  closure and the surrounding failsafe retry loop);
* `response.go` — the `Response` body-lifecycle state machine
  (`ReadBytes` / `ReadJSON`);
* `authc/basicauth/auth.go` — `BasicCredential.Authenticate` / `inject`
  (with Go's `net/http.Request.SetBasicAuth` and `encoding/base64`);
* `authc/oauth2scheme/auth.go` — `TokenLocation.addTokenSchemeToValue`;
* the load-balancer `Host` (base-URL handling, `GetLastHTTPErrorStatus`,
  `NewRequest`) and the weighted round-robin balancer
  (`loadbalancer/roundrobin/round_robin.go`: `Next`, `Refresh`,
  `nextRoundRobin`, `nextWeightRoundRobin`).

Go machine integers that matter here (HTTP status codes, weights, current
weights) are modelled as `Int`; none of the modelled computations can
overflow 64-bit ranges on the inputs considered. Strings are Lean `String`s;
Go byte strings in the claims are ASCII, so `Char.toNat` is the byte value.
-/

/-! ## String helpers (models of Go's `strings` package functions used) -/

/-- Model of `strings.Contains s pat` on the underlying character lists. -/
def listContainsSub : List Char → List Char → Bool
  | s, pat =>
    pat.isPrefixOf s ||
      match s with
      | [] => false
      | _ :: rest => listContainsSub rest pat

/-- Model of Go `strings.Contains`. -/
def strContains (s pat : String) : Bool :=
  listContainsSub s.toList pat.toList

/-- Model of the regular expression `stopped after \d+ redirects\z`
(`stoppedAfterRedirects` in `httpconfig/retry.go`): the string ends with
`stopped after <one or more digits> redirects`. -/
def stoppedAfterRedirectsMatch (s : String) : Bool :=
  let rcs := s.toList.reverse
  let tail1 := " redirects".toList.reverse
  if tail1.isPrefixOf rcs then
    let rest := rcs.drop tail1.length
    let digs := rest.takeWhile Char.isDigit
    !digs.isEmpty && ("stopped after ".toList.reverse).isPrefixOf (rest.drop digs.length)
  else
    false

/-- Model of Go `strings.TrimRight(s, "/")`: remove all trailing slashes. -/
def trimRightSlashes (s : String) : String :=
  String.mk ((s.toList.reverse.dropWhile (fun c => c = '/')).reverse)

/-! ## Retry decision function (`httpconfig/retry.go`, `retryHandleFunc`) -/

/-- The slice of an `*http.Response` that `retryHandleFunc` inspects. -/
structure HTTPResponse where
  statusCode : Int
  deriving Repr, DecidableEq

/-- Model of a Go `error` value as seen by `retryHandleFunc`: its message
string, and whether it is a `url.Error` wrapping an
`x509.UnknownAuthorityError` (the `errors.As` / `errors.Is` test in the
source). -/
structure GoError where
  msg : String
  isURLUnknownAuthority : Bool
  deriving Repr, DecidableEq

/-- Model of `retryHandleFunc(httpStatus)` from `httpconfig/retry.go`:
the function deciding whether a `(response, error)` pair is retried.
`none` models a nil pointer. -/
def retryHandleFunc (httpStatus : List Int) (resp : Option HTTPResponse)
    (err : Option GoError) : Bool :=
  match err with
  | some e =>
    if strContains e.msg "unsupported protocol scheme" ||
        strContains e.msg "certificate is not trusted" ||
        stoppedAfterRedirectsMatch e.msg then
      false
    else if e.isURLUnknownAuthority then
      false
    else
      true
  | none =>
    match resp with
    | some r =>
      if 0 < httpStatus.length ∧ r.statusCode ∈ httpStatus then true
      else if r.statusCode = 429 then true
      else if 500 ≤ r.statusCode ∧ r.statusCode ≠ 501 then true
      else false
    | none => false

/-- The non-retryable error signatures listed by the specification. -/
def nonRetryableSignature (e : GoError) : Bool :=
  strContains e.msg "unsupported protocol scheme" ||
    strContains e.msg "certificate is not trusted" ||
    stoppedAfterRedirectsMatch e.msg ||
    e.isURLUnknownAuthority

/-- The retry decision exactly as the claim words it, including the
`500 ≤ status ≤ 599` upper bound on the 5xx rule. -/
def claimRetryDecision (httpStatus : List Int) (resp : Option HTTPResponse)
    (err : Option GoError) : Bool :=
  match err with
  | some e => !nonRetryableSignature e
  | none =>
    match resp with
    | some r =>
      if r.statusCode ∈ httpStatus then true
      else if r.statusCode = 429 then true
      else if 500 ≤ r.statusCode ∧ r.statusCode ≤ 599 ∧ r.statusCode ≠ 501 then true
      else false
    | none => false

/-- The retry decision with the amendment forced by the code: the 5xx rule
has no `≤ 599` upper bound. -/
def amendedRetryDecision (httpStatus : List Int) (resp : Option HTTPResponse)
    (err : Option GoError) : Bool :=
  match err with
  | some e => !nonRetryableSignature e
  | none =>
    match resp with
    | some r =>
      if r.statusCode ∈ httpStatus then true
      else if r.statusCode = 429 then true
      else if 500 ≤ r.statusCode ∧ r.statusCode ≠ 501 then true
      else false
    | none => false

/-- C1 counterexample: on a response with status 600 (no error, no explicit
retryable set), the code retries, while the claim's chain (`500 ≤ status ≤ 599`
and otherwise no-retry) decides no-retry. -/
theorem retryHandleFunc_status600_counterexample :
    retryHandleFunc [] (some ⟨600⟩) none = true ∧
      claimRetryDecision [] (some ⟨600⟩) none = false := by
  constructor <;> decide

/-- C1 (amended): the retry decision function decides exactly per the claimed
chain, with the 5xx rule amended to `500 ≤ status` with no upper bound:
non-retryable signature → no retry; other non-nil error → retry; status in the
configured set → retry; status 429 → retry; `500 ≤ status ≠ 501` → retry;
otherwise no retry. -/
theorem retryHandleFunc_eq_amendedRetryDecision
    (httpStatus : List Int) (resp : Option HTTPResponse) (err : Option GoError) :
    retryHandleFunc httpStatus resp err = amendedRetryDecision httpStatus resp err := by
  rcases err with _ | e
  · rcases resp with _ | r
    · rfl
    · show (if 0 < httpStatus.length ∧ r.statusCode ∈ httpStatus then true
        else if r.statusCode = 429 then true
        else if 500 ≤ r.statusCode ∧ r.statusCode ≠ 501 then true else false) = _
      by_cases hmem : r.statusCode ∈ httpStatus
      · have hlen : 0 < httpStatus.length := List.length_pos.mpr (List.ne_nil_of_mem hmem)
        simp [amendedRetryDecision, hmem, hlen]
      · have : ¬(0 < httpStatus.length ∧ r.statusCode ∈ httpStatus) := fun h => hmem h.2
        simp [amendedRetryDecision, hmem, this]
  · show (if strContains e.msg "unsupported protocol scheme" ||
        strContains e.msg "certificate is not trusted" ||
        stoppedAfterRedirectsMatch e.msg then false
      else if e.isURLUnknownAuthority then false else true) = !nonRetryableSignature e
    unfold nonRetryableSignature
    rcases hs1 : strContains e.msg "unsupported protocol scheme" <;>
      rcases hs2 : strContains e.msg "certificate is not trusted" <;>
        rcases hs3 : stoppedAfterRedirectsMatch e.msg <;>
          rcases hs4 : e.isURLUnknownAuthority <;> simp [hs1, hs2, hs3, hs4]

/-! ## Retry policy defaults (`retry.go`) -/

/-- Model of `defaultRetryHTTPStatus` from `retry.go`. -/
def defaultRetryHTTPStatus : List Int := [408, 429, 500, 502, 503]

/-- Model of the `RetryPolicy` configuration structure from `retry.go`.
The backoff-shaping fields (`Jitter`, `Multiplier`) are floating-point and
are read by no operation modelled here, so they are omitted. -/
structure RetryPolicy where
  times : Nat
  delay : Nat
  httpStatus : List Int
  maxIntervalSeconds : Nat
  maxElapsedTimeSeconds : Nat
  deriving Repr, DecidableEq

/-- Model of `RetryPolicy.GetRetryHTTPStatus` from `retry.go`. -/
def RetryPolicy.GetRetryHTTPStatus (rp : RetryPolicy) : List Int :=
  if rp.httpStatus.length = 0 then defaultRetryHTTPStatus else rp.httpStatus

/-- C5 counterexample: with the retryable-status list unset, the default set
contains 408 and does not contain 504, so it is not `{429, 500, 502, 503, 504}`
as the claim states. -/
theorem getRetryHTTPStatus_default_counterexample :
    (408 : Int) ∈ (RetryPolicy.GetRetryHTTPStatus ⟨0, 0, [], 0, 0⟩) ∧
      (504 : Int) ∉ (RetryPolicy.GetRetryHTTPStatus ⟨0, 0, [], 0, 0⟩) := by
  constructor <;> decide

/-- C5 (amended): for every `RetryPolicy` with an unset (empty) retryable
HTTP-status list, the returned retryable statuses are exactly
`{408, 429, 500, 502, 503}`. -/
theorem getRetryHTTPStatus_default (rp : RetryPolicy) (h : rp.httpStatus = []) :
    rp.GetRetryHTTPStatus = [408, 429, 500, 502, 503] := by
  unfold RetryPolicy.GetRetryHTTPStatus
  simp [h, defaultRetryHTTPStatus]

/-- C5 witness: the amended default applies to the all-defaults policy. -/
theorem getRetryHTTPStatus_default_witness :
    RetryPolicy.GetRetryHTTPStatus ⟨0, 0, [], 0, 0⟩ = [408, 429, 500, 502, 503] :=
  getRetryHTTPStatus_default ⟨0, 0, [], 0, 0⟩ rfl

/-! ## Token location scheme composition (`authc/oauth2scheme/auth.go`) -/

/-- The `in` field of a token location. -/
inductive TokenIn where
  | header
  | query
  | cookie
  deriving Repr, DecidableEq

/-- Model of the `TokenLocation` structure. -/
structure TokenLocation where
  In : TokenIn
  Name : String
  Scheme : String
  deriving Repr, DecidableEq

/-- Model of `TokenLocation.addTokenSchemeToValue`: the Go `switch` matches
the scheme string exactly. -/
def TokenLocation.addTokenSchemeToValue (tl : TokenLocation) (value : String) : String :=
  if tl.Scheme = "bearer" then "Bearer " ++ value
  else if tl.Scheme = "basic" then "Basic " ++ value
  else if tl.Scheme = "" then value
  else tl.Scheme ++ " " ++ value

/-- C8 counterexample: scheme matching is not case-insensitive. With scheme
`"BASIC"` the composed value is `"BASIC t"`, not the `"Basic t"` that the
claim's case-insensitive rule demands. -/
theorem addTokenSchemeToValue_case_counterexample :
    TokenLocation.addTokenSchemeToValue ⟨TokenIn.header, "Authorization", "BASIC"⟩ "t"
        = "BASIC t" ∧
      TokenLocation.addTokenSchemeToValue ⟨TokenIn.header, "Authorization", "BASIC"⟩ "t"
        ≠ "Basic t" := by
  constructor <;> decide

/-- C8 (amended): scheme composition matches the scheme string exactly
(case-sensitively): scheme `"bearer"` yields `"Bearer <value>"`, scheme
`"basic"` yields `"Basic <value>"`, an empty scheme yields the value as-is,
and any other scheme is prepended verbatim followed by a single space. -/
theorem addTokenSchemeToValue_spec (tl : TokenLocation) (value : String) :
    (tl.Scheme = "bearer" → tl.addTokenSchemeToValue value = "Bearer " ++ value) ∧
    (tl.Scheme = "basic" → tl.addTokenSchemeToValue value = "Basic " ++ value) ∧
    (tl.Scheme = "" → tl.addTokenSchemeToValue value = value) ∧
    (tl.Scheme ≠ "bearer" → tl.Scheme ≠ "basic" → tl.Scheme ≠ "" →
      tl.addTokenSchemeToValue value = tl.Scheme ++ " " ++ value) := by
  unfold TokenLocation.addTokenSchemeToValue
  refine ⟨fun h => ?_, fun h => ?_, fun h => ?_, fun h1 h2 h3 => ?_⟩
  · simp [h]
  · simp [h]
  · simp [h]
  · simp [h1, h2, h3]

/-- C8 witness: the four composition rules at concrete schemes. -/
theorem addTokenSchemeToValue_spec_witness :
    TokenLocation.addTokenSchemeToValue ⟨TokenIn.header, "Authorization", "bearer"⟩ "T"
        = "Bearer T" ∧
      TokenLocation.addTokenSchemeToValue ⟨TokenIn.header, "X-Auth", "DSig"⟩ "T"
        = "DSig T" :=
  ⟨(addTokenSchemeToValue_spec ⟨TokenIn.header, "Authorization", "bearer"⟩ "T").1 rfl,
    (addTokenSchemeToValue_spec ⟨TokenIn.header, "X-Auth", "DSig"⟩ "T").2.2.2
      (by decide) (by decide) (by decide)⟩

/-! ## Basic authentication (`authc/basicauth/auth.go`)

`BasicCredential.inject` with no custom header delegates to Go's
`http.Request.SetBasicAuth`, which sets the `Authorization` header to
`"Basic " + base64(user + ":" + password)` with the standard base64
alphabet; that standard-library behaviour is embedded below. -/

/-- The standard base64 alphabet used by Go's `encoding/base64.StdEncoding`. -/
def base64Alphabet : List Char :=
  "ABCDEFGHIJKLMNOPQRSTUVWXYZabcdefghijklmnopqrstuvwxyz0123456789+/".toList

/-- One alphabet character for a 6-bit group. -/
def b64Char (n : Nat) : Char := base64Alphabet.getD n '='

/-- Standard base64 encoding with padding over byte values. -/
def base64Encode : List Nat → List Char
  | b1 :: b2 :: b3 :: rest =>
    b64Char (b1 / 4) :: b64Char ((b1 % 4) * 16 + b2 / 16) ::
      b64Char ((b2 % 16) * 4 + b3 / 64) :: b64Char (b3 % 64) :: base64Encode rest
  | [b1, b2] =>
    [b64Char (b1 / 4), b64Char ((b1 % 4) * 16 + b2 / 16), b64Char ((b2 % 16) * 4), '=']
  | [b1] => [b64Char (b1 / 4), b64Char ((b1 % 4) * 16), '=', '=']
  | [] => []

/-- Byte values of an ASCII string. -/
def strBytes (s : String) : List Nat := s.toList.map Char.toNat

/-- Model of Go `net/http`'s `basicAuth(username, password)`:
base64 of `username ++ ":" ++ password`. -/
def goBasicAuthToken (user password : String) : String :=
  String.mk (base64Encode (strBytes (user ++ ":" ++ password)))

/-- A request as seen by the credential injectors: its header multimap,
modelled as an association list (one value per header name). -/
structure ModelRequest where
  headers : List (String × String)
  deriving Repr, DecidableEq

/-- Header lookup; the empty string models an unset header (Go
`Header.Get`). -/
def headerGet (req : ModelRequest) (key : String) : String :=
  ((req.headers.find? (fun kv => kv.1 = key)).map (fun kv => kv.2)).getD ""

/-- Header replacement (Go `Header.Set`). -/
def headerSet (req : ModelRequest) (key value : String) : ModelRequest :=
  ⟨(key, value) :: req.headers.filter (fun kv => kv.1 ≠ key)⟩

/-- Model of Go `http.Request.SetBasicAuth`. -/
def setBasicAuth (req : ModelRequest) (user password : String) : ModelRequest :=
  headerSet req "Authorization" ("Basic " ++ goBasicAuthToken user password)

/-- Model of the `BasicCredential` structure. -/
structure BasicCredential where
  header : String
  username : String
  password : String
  deriving Repr, DecidableEq

/-- Model of Go `url.UserPassword(user, password).String()` /
`url.User(user).String()` as used by `BasicCredential.inject`. Percent
escaping of reserved characters is elided: the claims only exercise
alphanumeric user names and passwords, which Go leaves unescaped. -/
def urlUserinfoString (user : String) (password : Option String) : String :=
  match password with
  | some p => user ++ ":" ++ p
  | none => user

/-- Model of `BasicCredential.inject`. -/
def BasicCredential.inject (bc : BasicCredential) (req : ModelRequest) : ModelRequest :=
  if bc.header ≠ "" then
    let userInfo :=
      if bc.password ≠ "" then urlUserinfoString bc.username (some bc.password)
      else urlUserinfoString bc.username none
    headerSet req bc.header ("Basic " ++ String.mk (base64Encode (strBytes userInfo)))
  else
    setBasicAuth req bc.username bc.password

/-- Model of `BasicCredential.Authenticate`. -/
def BasicCredential.Authenticate (bc : BasicCredential) (req : ModelRequest) : ModelRequest :=
  bc.inject req

/-- C9 counterexample: the outgoing header value is the base64 of `"u:p"`
(with the colon), which is `"dTpw"`; it is not `"dXA="` (the base64 of `"up"`)
as the claim states. -/
theorem basicAuth_up_counterexample :
    headerGet (BasicCredential.Authenticate ⟨"", "u", "p"⟩ ⟨[]⟩) "Authorization"
        = "Basic dTpw" ∧
      headerGet (BasicCredential.Authenticate ⟨"", "u", "p"⟩ ⟨[]⟩) "Authorization"
        ≠ "Basic dXA=" := by
  constructor <;> decide

/-- C9 (amended): a basic credential with username `"u"`, password `"p"` and
no custom header name, applied to a request with an empty `Authorization`
header, sets the outgoing header to exactly
`Authorization: Basic dTpw` (base64 of `"u:p"`). -/
theorem basicAuth_up_header :
    headerGet (⟨[]⟩ : ModelRequest) "Authorization" = "" ∧
      headerGet (BasicCredential.Authenticate ⟨"", "u", "p"⟩ ⟨[]⟩) "Authorization"
        = "Basic " ++ goBasicAuthToken "u" "p" ∧
      goBasicAuthToken "u" "p" = "dTpw" := by
  refine ⟨rfl, ?_, ?_⟩ <;> decide

/-! ## Response body lifecycle (`response.go`) -/

/-- Lifecycle errors returned by the `Response` accessors, plus `ioError` for
errors surfaced from the underlying reader or JSON decoder. -/
inductive RespError where
  | bodyReadAfterClose
  | bodyAlreadyRead
  | bodyNoContent
  | ioError (msg : String)
  deriving Repr, DecidableEq

/-- The lifecycle state of a `Response`: the `closed` and `isBodyRead` flags,
whether the wrapped body reader is present (`body != nil`), and whether the
underlying body reader has had `Close` called on it (the effect of the
deferred close in `ReadBytes` / `ReadJSON`). -/
structure RespState where
  closed : Bool
  isBodyRead : Bool
  hasBody : Bool
  bodyClosed : Bool
  deriving Repr, DecidableEq

/-- Model of `Response.ReadBytes`. The outcome of `io.ReadAll` on the
underlying reader is supplied as `outcome` (bytes read plus an optional
error), since the reader itself is outside the model. -/
def respReadBytes (st : RespState) (outcome : List Nat × Option RespError) :
    (List Nat × Option RespError) × RespState :=
  if st.closed then (([], some RespError.bodyReadAfterClose), st)
  else if st.isBodyRead then (([], some RespError.bodyAlreadyRead), st)
  else if !st.hasBody then (([], some RespError.bodyNoContent), st)
  else (outcome, { st with isBodyRead := true, bodyClosed := true })

/-- Model of `Response.ReadJSON`. The outcome of the JSON decode on the
underlying reader is supplied as `decodeErr`. -/
def respReadJSON (st : RespState) (decodeErr : Option RespError) :
    Option RespError × RespState :=
  if st.closed then (some RespError.bodyReadAfterClose, st)
  else if st.isBodyRead then (some RespError.bodyAlreadyRead, st)
  else if !st.hasBody then (some RespError.bodyNoContent, st)
  else (decodeErr, { st with isBodyRead := true, bodyClosed := true })

/-- C10: on a response with an unread, unclosed, non-nil body, a failing
`ReadBytes` (or `ReadJSON`) still marks the body read and still closes the
underlying body, returns the read (decode) error, and every subsequent
`ReadBytes` or `ReadJSON` returns the body-already-read error. -/
theorem respRead_failure_marks_read (st : RespState) (bs : List Nat)
    (e : RespError)
    (hclosed : st.closed = false) (hread : st.isBodyRead = false)
    (hbody : st.hasBody = true) :
    (∀ st2, st2 = (respReadBytes st (bs, some e)).2 →
      (respReadBytes st (bs, some e)).1.2 = some e ∧
        st2.isBodyRead = true ∧ st2.bodyClosed = true ∧
        (∀ outcome2, (respReadBytes st2 outcome2).1.2 = some RespError.bodyAlreadyRead) ∧
        (∀ d2, (respReadJSON st2 d2).1 = some RespError.bodyAlreadyRead)) ∧
    (∀ st2, st2 = (respReadJSON st (some e)).2 →
      (respReadJSON st (some e)).1 = some e ∧
        st2.isBodyRead = true ∧ st2.bodyClosed = true ∧
        (∀ outcome2, (respReadBytes st2 outcome2).1.2 = some RespError.bodyAlreadyRead) ∧
        (∀ d2, (respReadJSON st2 d2).1 = some RespError.bodyAlreadyRead)) := by
  constructor
  · intro st2 hst2
    have h1 : (respReadBytes st (bs, some e)).2
        = { st with isBodyRead := true, bodyClosed := true } := by
      simp [respReadBytes, hclosed, hread, hbody]
    rw [hst2, h1]
    refine ⟨?_, rfl, rfl, ?_, ?_⟩
    · simp [respReadBytes, hclosed, hread, hbody]
    · intro outcome2
      simp [respReadBytes, hclosed]
    · intro d2
      simp [respReadJSON, hclosed]
  · intro st2 hst2
    have h1 : (respReadJSON st (some e)).2
        = { st with isBodyRead := true, bodyClosed := true } := by
      simp [respReadJSON, hclosed, hread, hbody]
    rw [hst2, h1]
    refine ⟨?_, rfl, rfl, ?_, ?_⟩
    · simp [respReadJSON, hclosed, hread, hbody]
    · intro outcome2
      simp [respReadBytes, hclosed]
    · intro d2
      simp [respReadJSON, hclosed]

/-- C10 witness: the failure-lifecycle theorem at a concrete fresh response
state and a concrete read error. -/
theorem respRead_failure_marks_read_witness :
    (respReadBytes ⟨false, false, true, false⟩ ([], some (RespError.ioError "eof"))).1.2
      = some (RespError.ioError "eof") ∧
    (respReadBytes
        (respReadBytes ⟨false, false, true, false⟩ ([], some (RespError.ioError "eof"))).2
        ([1, 2], none)).1.2 = some RespError.bodyAlreadyRead :=
  ⟨((respRead_failure_marks_read ⟨false, false, true, false⟩ [] (RespError.ioError "eof")
      rfl rfl rfl).1 _ rfl).1,
    (((respRead_failure_marks_read ⟨false, false, true, false⟩ [] (RespError.ioError "eof")
      rfl rfl rfl).1 _ rfl).2.2.2.1 ([1, 2], none))⟩

/-! ## The retry loop of the request executor (`request.go`,
`executeWithRetries`)

Each attempt is one call of `doRequest`; its outcome is supplied as a
function from the attempt number to a `(response, error)` pair. The
`operation` closure built by `executeWithRetries` returns `resp, nil`:
whatever error `doRequest` produced is dropped before the failsafe retry
policy sees it. The surrounding `failsafe.With(policy).Get(operation)` loop
retries while the policy's `HandleIf` (that is, `retryHandleFunc`) reports
the last `(response, error)` pair as retryable and attempts remain; when the
attempts are exhausted on a still-retryable outcome it surfaces the
library's retries-exceeded error instead. -/

/-- An error surfaced by the failsafe `Get` call: either the error the
operation returned, or the retry library's retries-exceeded error. -/
inductive SurfacedError where
  | fromOperation (e : GoError)
  | retriesExceeded
  deriving Repr, DecidableEq

/-- Model of the `operation` closure inside `executeWithRetries`: it runs the
attempt and returns `resp, nil` — the attempt's error is dropped (the
`r.retryAttempts` counter it increments only feeds logging). -/
def executeOperation (dispatch : Nat → Option HTTPResponse × Option GoError)
    (attempt : Nat) : Option HTTPResponse × Option GoError :=
  let result := dispatch attempt
  (result.1, none)

/-- Model of the failsafe retry loop around an operation, with at most
`maxAttempts` total attempts and `retryHandleFunc httpStatus` as the
retryable-outcome predicate. -/
def failsafeRetryLoop (httpStatus : List Int)
    (op : Nat → Option HTTPResponse × Option GoError) :
    Nat → Nat → Option HTTPResponse × Option SurfacedError
  | attempt, fuel =>
    let result := op attempt
    if !retryHandleFunc httpStatus result.1 result.2 then
      (result.1, result.2.map SurfacedError.fromOperation)
    else
      match fuel with
      | 0 => (result.1, some SurfacedError.retriesExceeded)
      | fuel' + 1 => failsafeRetryLoop httpStatus op (attempt + 1) fuel'

/-- Model of `executeWithRetries`: the failsafe loop applied to the
error-dropping `operation` closure, `maxAttempts` total attempts. -/
def executeWithRetries (httpStatus : List Int) (maxAttempts : Nat)
    (dispatch : Nat → Option HTTPResponse × Option GoError) :
    Option HTTPResponse × Option SurfacedError :=
  failsafeRetryLoop httpStatus (executeOperation dispatch) 0 (maxAttempts - 1)

/-- C2 (code bug evidence): with a 3-attempt retry policy and a dispatch
whose every attempt fails with a non-nil transport error and no response,
`executeWithRetries` returns a nil error (and no retry even happens, since
the swallowed error leaves the policy looking at a nil response): the final
attempt's error is not surfaced. Moreover, for every dispatch behaviour and
policy the surfaced error is never one of the dispatch errors. -/
theorem executeWithRetries_swallows_dispatch_error :
    (executeWithRetries [] 3
        (fun _ => (none, some ⟨"connection refused", false⟩)) = (none, none)) ∧
      (∀ httpStatus maxAttempts dispatch e,
        (executeWithRetries httpStatus maxAttempts dispatch).2
          ≠ some (SurfacedError.fromOperation e)) := by
  constructor
  · decide
  · intro httpStatus maxAttempts dispatch e
    unfold executeWithRetries
    generalize (maxAttempts - 1) = fuel
    generalize 0 = start
    induction fuel generalizing start with
    | zero =>
      simp only [failsafeRetryLoop, executeOperation]
      split
      · simp
      · simp
    | succ n ih =>
      simp only [failsafeRetryLoop, executeOperation]
      split
      · simp
      · exact ih (start + 1)

/-! ## The load-balancer `Host`

The Go `Host` also carries a name, custom headers, an HTTP client and an
authenticator; none of those fields are read by the operations the claims
are about, so they are elided. The health-check policy is modelled by its
circuit-breaker state and by the (pure) answer its `TryAcquirePermit` would
give; `lastHTTPErrorStatus` is the atomically stored int32. -/

/-- Model of Go `strings.HasPrefix`. -/
def strHasPre (s pre : String) : Bool :=
  pre.toList.isPrefixOf s.toList

/-- Circuit-breaker states of the failsafe-go breaker. -/
inductive CBState where
  | closedState
  | openState
  | halfOpenState
  deriving Repr, DecidableEq

/-- The slice of an `HTTPHealthCheckPolicy` read by the balancer and the
host: the breaker state and the `TryAcquirePermit` answer. -/
structure HealthPolicy where
  state : CBState
  permit : Bool
  deriving Repr, DecidableEq

/-- Model of the `Host` structure. -/
structure LBHost where
  url : String
  weight : Int
  currentWeight : Int
  policy : Option HealthPolicy
  lastHTTPErrorStatus : Int
  deriving Repr, DecidableEq

instance : Inhabited LBHost := ⟨⟨"", 0, 0, none, 0⟩⟩

/-- Model of `Host.SetURL`'s stored base URL:
`strings.TrimRight(baseURL, "/")`. -/
def hostSetURLStore (baseURL : String) : String := trimRightSlashes baseURL

/-- Model of `Host.GetLastHTTPErrorStatus`: the stored status, and the
server-outage flag `status >= 502 && status != 504`. -/
def LBHost.GetLastHTTPErrorStatus (h : LBHost) : Int × Bool :=
  (h.lastHTTPErrorStatus,
    decide (502 ≤ h.lastHTTPErrorStatus ∧ h.lastHTTPErrorStatus ≠ 504))

/-- The condition `s.healthCheckPolicy != nil &&
s.healthCheckPolicy.State() == circuitbreaker.OpenState` of `Host.NewRequest`. -/
def LBHost.breakerOpen (h : LBHost) : Bool :=
  match h.policy with
  | some p => decide (p.state = CBState.openState)
  | none => false

/-- The request-URL resolution performed by `Host.newRequest`: empty or `"/"`
resolves to the stored base URL; otherwise a URL without the `"http"` string
prefix is concatenated to the base (inserting `"/"` unless the URL starts
with `'/'`, which for a nonempty URL is `strings.HasPrefix(url, "/")`) and
trailing slashes are trimmed; otherwise the URL is used unchanged. -/
def hostResolveRequestURL (hostURL reqURL : String) : String :=
  if reqURL = "" ∨ reqURL = "/" then hostURL
  else if strHasPre reqURL "http" = true then reqURL
  else
    trimRightSlashes
      (if strHasPre reqURL "/" = true then hostURL ++ reqURL
       else hostURL ++ "/" ++ reqURL)

/-- The request value built by `Host.newRequest` (header injection and the
optional authenticator act on fields not modelled here). -/
structure BuiltRequest where
  method : String
  url : String
  deriving Repr, DecidableEq

/-- The error returned by `Host.NewRequest` when the breaker gate trips:
`goutils.NewRFC9457Error(int(lastHTTPErrorStatus), "")`. -/
inductive HostReqError where
  | problemDetails (status : Int)
  deriving Repr, DecidableEq

/-- Model of the un-exported `Host.newRequest`. -/
def LBHost.newRequest (h : LBHost) (method reqURL : String) : BuiltRequest :=
  ⟨method, hostResolveRequestURL h.url reqURL⟩

/-- Model of `Host.NewRequest`: the circuit-breaker/outage gate in front of
`newRequest`. -/
def LBHost.NewRequest (h : LBHost) (method reqURL : String) :
    Except HostReqError BuiltRequest :=
  if h.breakerOpen then
    let r := h.GetLastHTTPErrorStatus
    if r.2 then Except.error (HostReqError.problemDetails r.1)
    else Except.ok (h.newRequest method reqURL)
  else Except.ok (h.newRequest method reqURL)

/-- C6: the stored last HTTP error status classifies as a server outage iff
it is `≥ 502` and `≠ 504`; and whenever the breaker is open and the stored
status classifies as an outage, `NewRequest` returns the problem-details
error carrying that status (no request is built). -/
theorem host_outage_gate (h : LBHost) (method reqURL : String) :
    ((h.GetLastHTTPErrorStatus).2 = true ↔
      (502 ≤ h.lastHTTPErrorStatus ∧ h.lastHTTPErrorStatus ≠ 504)) ∧
    (h.breakerOpen = true → (h.GetLastHTTPErrorStatus).2 = true →
      h.NewRequest method reqURL
        = Except.error (HostReqError.problemDetails h.lastHTTPErrorStatus)) := by
  constructor
  · simp [LBHost.GetLastHTTPErrorStatus]
  · intro hopen houtage
    simp [LBHost.NewRequest, hopen, LBHost.GetLastHTTPErrorStatus] at houtage ⊢
    simp [houtage]

/-- C6 witness: a host with an open breaker and stored status 503 is gated
with a 503 problem-details error. -/
theorem host_outage_gate_witness :
    (LBHost.NewRequest ⟨"http://a", 1, 0, some ⟨CBState.openState, false⟩, 503⟩
        "GET" "/x")
      = Except.error (HostReqError.problemDetails 503) :=
  (host_outage_gate ⟨"http://a", 1, 0, some ⟨CBState.openState, false⟩, 503⟩
      "GET" "/x").2 (by decide) (by decide)

/-! Helper lemmas about `trimRightSlashes`. -/

/-- A fixed point of `trimRightSlashes` has its reversed character list fixed
under dropping leading slashes. -/
theorem trimRightSlashes_fix_dropWhile {v : String}
    (hfix : trimRightSlashes v = v) :
    v.data.reverse.dropWhile (fun c => c = '/') = v.data.reverse := by
  have h1 : ((v.toList.reverse.dropWhile (fun c => c = '/')).reverse) = v.data :=
    congrArg String.data hfix
  have h2 := congrArg List.reverse h1
  simpa using h2

/-- Dropping while from an append whose left part is a nonempty fixed point
changes nothing. -/
theorem dropWhile_append_fix {p : Char → Bool} {l1 : List Char}
    (h : l1.dropWhile p = l1) (hne : l1 ≠ []) (l2 : List Char) :
    (l1 ++ l2).dropWhile p = l1 ++ l2 := by
  rw [List.dropWhile_append, h]
  simp [hne]

/-- Appending in front of a nonempty `trimRightSlashes` fixed point is still
a fixed point. -/
theorem trimRightSlashes_append_fix (w v : String) (hne : v ≠ "")
    (hfix : trimRightSlashes v = v) :
    trimRightSlashes (w ++ v) = w ++ v := by
  have hvd : v.data ≠ [] := by
    intro hv
    exact hne (by cases v; simp at hv; simp [hv])
  have hvr : v.data.reverse ≠ [] := by simpa using hvd
  unfold trimRightSlashes
  have hrev : (w ++ v).toList.reverse = v.data.reverse ++ w.data.reverse := by
    show (w ++ v).data.reverse = _
    rw [String.data_append, List.reverse_append]
  rw [hrev, dropWhile_append_fix (trimRightSlashes_fix_dropWhile hfix) hvr]
  apply String.ext
  show (v.data.reverse ++ w.data.reverse).reverse = (w ++ v).data
  rw [List.reverse_append, List.reverse_reverse, List.reverse_reverse,
    String.data_append]

/-- The head of `dropWhile (· = '/')` is never `'/'`. -/
theorem dropWhile_slash_head (l : List Char) :
    (l.dropWhile (fun c => c = '/')).head? ≠ some '/' := by
  induction l with
  | nil => simp
  | cons c t ih =>
    rw [List.dropWhile_cons]
    by_cases hc : c = '/'
    · simpa [hc] using ih
    · simp [hc]

/-- C7 counterexample: `"httpbin/get"` is a relative URL, yet the code passes
it through unchanged (it shares the `"http"` string prefix), instead of
joining it to the base URL with one slash as the claim states. -/
theorem hostResolveRequestURL_counterexample :
    hostResolveRequestURL "http://h" "httpbin/get" = "httpbin/get" ∧
      hostResolveRequestURL "http://h" "httpbin/get" ≠ "http://h/httpbin/get" := by
  constructor <;> decide

/-- C7 (amended): the base URL stored by `SetURL` never ends in a slash, and
resolution behaves as: empty or `"/"` yields the base URL; a URL with the
string prefix `"http"` (absolute URLs included) passes through unchanged;
every other URL is appended to the base with a single `"/"` inserted unless
the URL already starts with one, and trailing slashes are trimmed from the
result — in particular, a relative URL without leading or trailing slash is
joined to the base with exactly one slash in between. -/
theorem hostResolveRequestURL_spec (b base u : String) :
    ((hostSetURLStore b).data.getLast? ≠ some '/') ∧
    (hostResolveRequestURL base "" = base) ∧
    (hostResolveRequestURL base "/" = base) ∧
    (strHasPre u "http" = true → hostResolveRequestURL base u = u) ∧
    (strHasPre u "http" = false → strHasPre u "/" = true → u ≠ "/" →
      hostResolveRequestURL base u = trimRightSlashes (base ++ u)) ∧
    (strHasPre u "http" = false → strHasPre u "/" = false → u ≠ "" →
      hostResolveRequestURL base u = trimRightSlashes (base ++ "/" ++ u)) ∧
    (strHasPre u "http" = false → strHasPre u "/" = false → u ≠ "" →
      trimRightSlashes u = u →
      hostResolveRequestURL base u = base ++ "/" ++ u) := by
  refine ⟨?_, ?_, ?_, ?_, ?_, ?_, ?_⟩
  · unfold hostSetURLStore trimRightSlashes
    show ((b.toList.reverse.dropWhile (fun c => c = '/')).reverse).getLast? ≠ some '/'
    rw [List.getLast?_reverse]
    exact dropWhile_slash_head b.toList.reverse
  · simp [hostResolveRequestURL]
  · simp [hostResolveRequestURL]
  · intro hpre
    have hu1 : u ≠ "" := by
      intro hu
      rw [hu] at hpre
      exact absurd hpre (by decide)
    have hu2 : u ≠ "/" := by
      intro hu
      rw [hu] at hpre
      exact absurd hpre (by decide)
    simp [hostResolveRequestURL, hu1, hu2, hpre]
  · intro hpre hslash hu2
    have hu1 : u ≠ "" := by
      intro hu
      rw [hu] at hslash
      exact absurd hslash (by decide)
    simp [hostResolveRequestURL, hu1, hu2, hpre, hslash]
  · intro hpre hslash hu1
    have hu2 : u ≠ "/" := by
      intro hu
      rw [hu] at hslash
      exact absurd hslash (by decide)
    simp [hostResolveRequestURL, hu1, hu2, hpre, hslash]
  · intro hpre hslash hu1 hfix
    have hu2 : u ≠ "/" := by
      intro hu
      rw [hu] at hslash
      exact absurd hslash (by decide)
    have h6 : hostResolveRequestURL base u = trimRightSlashes (base ++ "/" ++ u) := by
      simp [hostResolveRequestURL, hu1, hu2, hpre, hslash]
    rw [h6, trimRightSlashes_append_fix (base ++ "/") u hu1 hfix]

/-- C7 witness: resolution at concrete inputs — base join with one slash,
root and empty paths, and an absolute URL passing through. -/
theorem hostResolveRequestURL_spec_witness :
    hostResolveRequestURL "http://h" "v1/items" = "http://h/v1/items" ∧
      hostResolveRequestURL "http://h" "/" = "http://h" ∧
      hostResolveRequestURL "http://h" "http://other/x" = "http://other/x" :=
  ⟨(hostResolveRequestURL_spec "b" "http://h" "v1/items").2.2.2.2.2.2
      (by decide) (by decide) (by decide) (by decide),
    (hostResolveRequestURL_spec "b" "http://h" "v1/items").2.2.1,
    (hostResolveRequestURL_spec "b" "http://h" "http://other/x").2.2.2.1 (by decide)⟩

/-! ## Weighted round-robin balancer
(`loadbalancer/roundrobin/round_robin.go`)

The Go methods mutate the balancer and its hosts in place; here each
operation returns the index of the chosen host together with the successor
state. `TryAcquirePermit` is modelled by the pure `permit` field (its
open-to-half-open side effect touches no state read by these claims). -/

/-- The gating test both balancer paths apply to a candidate host: it has a
health policy whose breaker state is open and whose permit is denied. -/
def isSkipped (h : LBHost) : Bool :=
  match h.policy with
  | some p => decide (p.state = CBState.openState) && !p.permit
  | none => false

/-- Model of `Host.AddCurrentWeight`: add the weight to the current weight. -/
def LBHost.AddCurrentWeight (h : LBHost) : LBHost :=
  { h with currentWeight := h.currentWeight + h.weight }

/-- Model of `Host.ResetCurrentWeight`: subtract the total weight. -/
def LBHost.ResetCurrentWeight (h : LBHost) (totalWeight : Int) : LBHost :=
  { h with currentWeight := h.currentWeight - totalWeight }

/-- The best-candidate update of the `nextWeightRoundRobin` loop:
`best == nil || h.CurrentWeight() > best.CurrentWeight()` replaces the best
(the compared current weights are the post-`AddCurrentWeight` values). -/
def bestUpdate (best : Option (Nat × Int)) (i : Nat) (c : Int) : Option (Nat × Int) :=
  match best with
  | none => some (i, c)
  | some (j, bw) => if bw < c then some (i, c) else some (j, bw)

/-- The scan loop of `nextRoundRobin`: try one full cycle starting at the
cursor `tw`, remembering the last skipped non-outage host as fallback.
Returns the selected index (if any) and the fallback index (if any). -/
def rrFindAux (hs : List LBHost) (tw : Int) :
    Nat → Nat → Option Nat → Option Nat × Option Nat
  | _, 0, fb => (none, fb)
  | i, fuel + 1, fb =>
    let idx := (((i : Int) + tw) % (hs.length : Int)).toNat
    match hs.get? idx with
    | none => (none, fb)
    | some h =>
      if isSkipped h then
        rrFindAux hs tw (i + 1) fuel
          (if (h.GetLastHTTPErrorStatus).2 then fb else some idx)
      else (some idx, fb)

/-- Model of `nextRoundRobin` (`totalWeight` doubles as the cursor when all
weights are equal): the selected host's index and the new cursor. `none`
models the panic of the `rr.hosts[rr.totalWeight]` fallback access when the
cursor is out of range (unreachable from states the balancer constructs). -/
def nextRoundRobin (hs : List LBHost) (tw : Int) : Option (Nat × Int) :=
  match rrFindAux hs tw 0 hs.length none with
  | (some idx, _) => some (idx, ((idx : Int) + 1) % (hs.length : Int))
  | (none, some fbIdx) => some (fbIdx, (tw + 1) % (hs.length : Int))
  | (none, none) =>
    if 0 ≤ tw ∧ tw < (hs.length : Int) then
      some (tw.toNat, (tw + 1) % (hs.length : Int))
    else none

/-- The loop of `nextWeightRoundRobin`, processed functionally: the already
processed hosts (reversed, with updated current weights), the running
`total`, the current best index with its current weight, and the fallback
index. -/
def wrrScanGo :
    List LBHost → Nat → List LBHost → Int → Option (Nat × Int) → Option Nat →
      List LBHost × Int × Option (Nat × Int) × Option Nat
  | [], _, acc, total, best, fb => (acc.reverse, total, best, fb)
  | h :: rest, i, acc, total, best, fb =>
    if isSkipped h then
      wrrScanGo rest (i + 1) (h :: acc) total best
        (if (h.GetLastHTTPErrorStatus).2 then fb else some i)
    else
      wrrScanGo rest (i + 1) (h.AddCurrentWeight :: acc) (total + h.weight)
        (bestUpdate best i h.AddCurrentWeight.currentWeight) fb

/-- Model of `nextWeightRoundRobin`: run the scan; if a best host exists,
subtract the total from its current weight (`ResetCurrentWeight`) and return
it; otherwise return the fallback host, or the first host. `none` models the
panic of `wrr.hosts[0]` on an empty list (unreachable: `Next` only calls
this with at least two hosts). -/
def nextWeightRoundRobin (hs : List LBHost) : Option (Nat × List LBHost) :=
  match wrrScanGo hs 0 [] 0 none none with
  | (hs2, total, some jbw, _) =>
    match hs2.get? jbw.1 with
    | some hj => some (jbw.1, hs2.set jbw.1 (hj.ResetCurrentWeight total))
    | none => none
  | (hs2, _, none, some fbIdx) => some (fbIdx, hs2)
  | (hs2, _, none, none) => if hs2.isEmpty then none else some (0, hs2)

/-- Sum of the host weights (`newTotalWeight` in `Refresh`). -/
def sumWeights (hs : List LBHost) : Int := (hs.map (fun h => h.weight)).sum

/-- The balancer state: the host list, the all-weights-equal flag, and the
`totalWeight` field (reused as the round-robin cursor when the weights are
all equal). -/
structure WRRState where
  hosts : List LBHost
  isSameWeight : Bool
  totalWeight : Int
  deriving Repr, DecidableEq

/-- Model of `Refresh` applied to a fresh balancer: the Go loop keeps
`lastWeight` fixed at index 0, so `isSameWeight` says every weight equals
the first host's; with equal weights `totalWeight` is reset to 0 (the
cursor), otherwise it is the weight total. -/
def refreshState (hs : List LBHost) : WRRState :=
  let isSame :=
    match hs with
    | [] => true
    | h0 :: rest => rest.all (fun h => h.weight == h0.weight)
  ⟨hs, isSame, if isSame then 0 else sumWeights hs⟩

/-- Errors of the `Next` model: `ErrNoActiveHost`, or a Go slice-index panic
(modelled explicitly, never reachable from balancer-constructed states). -/
inductive NextError where
  | noActiveHost
  | indexOutOfRange
  deriving Repr, DecidableEq

/-- Model of `WeightedRoundRobin.Next`: no host yields `ErrNoActiveHost`, a
single host is returned directly, and otherwise the plain or weighted
round-robin path runs depending on `isSameWeight`. -/
def wrrNext (s : WRRState) : Except NextError (Nat × WRRState) :=
  match s.hosts.length with
  | 0 => Except.error NextError.noActiveHost
  | 1 => Except.ok (0, s)
  | _ + 2 =>
    if s.isSameWeight then
      match nextRoundRobin s.hosts s.totalWeight with
      | some (j, tw2) => Except.ok (j, { s with totalWeight := tw2 })
      | none => Except.error NextError.indexOutOfRange
    else
      match nextWeightRoundRobin s.hosts with
      | some (j, hs2) => Except.ok (j, { s with hosts := hs2 })
      | none => Except.error NextError.indexOutOfRange

/-- Iterated `Next`: the list of chosen host indices, in order, and the
final state; `none` if any step fails. -/
def wrrIter (s : WRRState) : Nat → Option (List Nat × WRRState)
  | 0 => some ([], s)
  | k + 1 =>
    match wrrNext s with
    | Except.error _ => none
    | Except.ok (j, s2) =>
      match wrrIter s2 k with
      | some (ps, sf) => some (j :: ps, sf)
      | none => none

/-! Bounds lemmas for the two scan loops. -/

/-- A successful `get?` implies the index is in range. -/
theorem get?_some_lt {α : Type} {l : List α} {n : Nat} {a : α}
    (h : l.get? n = some a) : n < l.length := by
  by_contra hn
  rw [List.get?_eq_none.mpr (Nat.le_of_not_lt hn)] at h
  cases h

/-- The selection and fallback indices produced by `rrFindAux` are in range
whenever the incoming fallback index is. -/
theorem rrFindAux_bounds (hs : List LBHost) (tw : Int) :
    ∀ fuel i fb, (∀ x, fb = some x → x < hs.length) →
      (∀ j, (rrFindAux hs tw i fuel fb).1 = some j → j < hs.length) ∧
      (∀ x, (rrFindAux hs tw i fuel fb).2 = some x → x < hs.length) := by
  intro fuel
  induction fuel with
  | zero =>
    intro i fb hfb
    have hstep : rrFindAux hs tw i 0 fb = (none, fb) := by rw [rrFindAux]
    rw [hstep]
    exact And.intro (fun j hj => nomatch hj) hfb
  | succ n ih =>
    intro i fb hfb
    rcases hidx : hs.get? (((i : Int) + tw) % (hs.length : Int)).toNat with _ | h
    · have hstep : rrFindAux hs tw i (n + 1) fb = (none, fb) := by
        rw [rrFindAux, hidx]
      rw [hstep]
      exact And.intro (fun j hj => nomatch hj) hfb
    · have hlt := get?_some_lt hidx
      have hstep : rrFindAux hs tw i (n + 1) fb =
          (if isSkipped h then
            rrFindAux hs tw (i + 1) n
              (if (h.GetLastHTTPErrorStatus).2 then fb
               else some (((i : Int) + tw) % (hs.length : Int)).toNat)
          else (some (((i : Int) + tw) % (hs.length : Int)).toNat, fb)) := by
        rw [rrFindAux, hidx]
      rw [hstep]
      by_cases hsk : isSkipped h = true
      · rw [if_pos hsk]
        apply ih
        intro x hx
        rcases hout : (h.GetLastHTTPErrorStatus).2
        · rw [hout, if_neg Bool.false_ne_true] at hx
          cases hx
          exact hlt
        · rw [hout, if_pos rfl] at hx
          exact hfb x hx
      · rw [if_neg hsk]
        exact And.intro (fun j hj => by cases hj; exact hlt) hfb

/-- Every index placed into the best slot by `bestUpdate` is in range. -/
theorem bestUpdate_lt {best : Option (Nat × Int)} {i : Nat} {c : Int}
    (hbest : ∀ jb, best = some jb → jb.1 < i) :
    ∀ jb, bestUpdate best i c = some jb → jb.1 < i + 1 := by
  intro jb hjb
  rcases best with _ | ⟨j, bw⟩
  · simp only [bestUpdate] at hjb
    cases hjb
    exact Nat.lt_succ_self i
  · simp only [bestUpdate] at hjb
    by_cases hc : bw < c
    · rw [if_pos hc] at hjb
      cases hjb
      exact Nat.lt_succ_self i
    · rw [if_neg hc] at hjb
      cases hjb
      exact Nat.lt_succ_of_lt (hbest (j, bw) rfl)

/-- Shape of the weighted scan: the processed list keeps one entry per host,
and the best and fallback indices stay in range. -/
theorem wrrScanGo_bounds :
    ∀ (hs : List LBHost) (i : Nat) (acc : List LBHost) (total : Int)
      (best : Option (Nat × Int)) (fb : Option Nat),
      acc.length = i →
      (∀ jb, best = some jb → jb.1 < i) →
      (∀ x, fb = some x → x < i) →
      ((wrrScanGo hs i acc total best fb).1.length = i + hs.length) ∧
      (∀ jb, (wrrScanGo hs i acc total best fb).2.2.1 = some jb →
        jb.1 < i + hs.length) ∧
      (∀ x, (wrrScanGo hs i acc total best fb).2.2.2 = some x →
        x < i + hs.length) := by
  intro hs
  induction hs with
  | nil =>
    intro i acc total best fb hacc hbest hfb
    have hstep : wrrScanGo [] i acc total best fb = (acc.reverse, total, best, fb) := by
      rw [wrrScanGo]
    rw [hstep]
    refine ⟨by simpa using hacc, ?_, ?_⟩
    · intro jb hjb
      exact Nat.lt_of_lt_of_le (hbest jb hjb) (by omega)
    · intro x hx
      exact Nat.lt_of_lt_of_le (hfb x hx) (by omega)
  | cons h rest ih =>
    intro i acc total best fb hacc hbest hfb
    have hstep : wrrScanGo (h :: rest) i acc total best fb =
        (if isSkipped h then
          wrrScanGo rest (i + 1) (h :: acc) total best
            (if (h.GetLastHTTPErrorStatus).2 then fb else some i)
        else
          wrrScanGo rest (i + 1) (h.AddCurrentWeight :: acc) (total + h.weight)
            (bestUpdate best i h.AddCurrentWeight.currentWeight) fb) := by
      rw [wrrScanGo]
    rw [hstep]
    by_cases hsk : isSkipped h = true
    · rw [if_pos hsk]
      have hnext := ih (i + 1) (h :: acc) total best
        (if (h.GetLastHTTPErrorStatus).2 then fb else some i)
        (by simp [hacc]) (fun jb hjb => Nat.lt_succ_of_lt (hbest jb hjb)) ?_
      · refine ⟨?_, ?_, ?_⟩
        · rw [hnext.1]
          simp
          omega
        · intro jb hjb
          have := hnext.2.1 jb hjb
          simp only [List.length_cons]
          omega
        · intro x hx
          have := hnext.2.2 x hx
          simp only [List.length_cons]
          omega
      · intro x hx
        rcases hout : (h.GetLastHTTPErrorStatus).2
        · rw [hout, if_neg Bool.false_ne_true] at hx
          cases hx
          exact Nat.lt_succ_self i
        · rw [hout, if_pos rfl] at hx
          exact Nat.lt_succ_of_lt (hfb x hx)
    · rw [if_neg hsk]
      have hnext := ih (i + 1) (h.AddCurrentWeight :: acc) (total + h.weight)
        (bestUpdate best i h.AddCurrentWeight.currentWeight) fb
        (by simp [hacc]) (bestUpdate_lt hbest)
        (fun x hx => Nat.lt_succ_of_lt (hfb x hx))
      refine ⟨?_, ?_, ?_⟩
      · rw [hnext.1]
        simp
        omega
      · intro jb hjb
        have := hnext.2.1 jb hjb
        simp only [List.length_cons]
        omega
      · intro x hx
        have := hnext.2.2 x hx
        simp only [List.length_cons]
        omega

/-- Reduction of `Next` on at least two hosts. -/
theorem wrrNext_cons2 (a b : LBHost) (t : List LBHost) (same : Bool) (tw : Int) :
    wrrNext ⟨a :: b :: t, same, tw⟩ =
      if same = true then
        match nextRoundRobin (a :: b :: t) tw with
        | some (j, tw2) => Except.ok (j, (⟨a :: b :: t, same, tw2⟩ : WRRState))
        | none => Except.error NextError.indexOutOfRange
      else
        match nextWeightRoundRobin (a :: b :: t) with
        | some (j, hs2) => Except.ok (j, (⟨hs2, same, tw⟩ : WRRState))
        | none => Except.error NextError.indexOutOfRange := rfl

/-- For a nonempty host list with an in-range cursor, the plain round-robin
path always selects some in-range host. -/
theorem nextRoundRobin_ok (hs : List LBHost) (tw : Int)
    (h0 : 0 ≤ tw) (h1 : tw < (hs.length : Int)) :
    ∃ j tw2, nextRoundRobin hs tw = some (j, tw2) ∧ j < hs.length := by
  have hb := rrFindAux_bounds hs tw hs.length 0 none (fun x hx => by cases hx)
  rw [nextRoundRobin]
  rcases hres : rrFindAux hs tw 0 hs.length none with ⟨sel, fb⟩
  rw [hres] at hb
  rcases sel with _ | idx
  · rcases fb with _ | fbi
    · refine ⟨tw.toNat, (tw + 1) % (hs.length : Int), ?_, ?_⟩
      · rw [if_pos (And.intro h0 h1)]
      · omega
    · exact ⟨fbi, _, rfl, hb.2 fbi rfl⟩
  · exact ⟨idx, _, rfl, hb.1 idx rfl⟩

/-- For a nonempty host list, the weighted path always selects some in-range
host. -/
theorem nextWeightRoundRobin_ok (hs : List LBHost) (hne : hs ≠ []) :
    ∃ j hs2, nextWeightRoundRobin hs = some (j, hs2) ∧ j < hs.length := by
  have hb := wrrScanGo_bounds hs 0 [] 0 none none rfl
    (fun jb hjb => by cases hjb) (fun x hx => by cases hx)
  rw [nextWeightRoundRobin]
  rcases hres : wrrScanGo hs 0 [] 0 none none with ⟨hs2, total, best, fb⟩
  rw [hres] at hb
  have hlen : hs2.length = hs.length := by simpa using hb.1
  have hpos : 0 < hs.length := List.length_pos.mpr hne
  rcases best with _ | jbw
  · rcases fb with _ | fbi
    · have hemp : hs2.isEmpty = false := by
        rcases hs2 with _ | ⟨x, xs⟩
        · simp at hlen
          omega
        · rfl
      refine ⟨0, hs2, ?_, hpos⟩
      show (if hs2.isEmpty = true then none else some (0, hs2)) = some (0, hs2)
      rw [hemp, if_neg Bool.false_ne_true]
    · have hflt := hb.2.2 fbi rfl
      exact ⟨fbi, hs2, rfl, by simpa using hflt⟩
  · have hjlt : jbw.1 < hs.length := by simpa using hb.2.1 jbw rfl
    have hjlt2 : jbw.1 < hs2.length := by omega
    refine ⟨jbw.1, hs2.set jbw.1 ((hs2.get ⟨jbw.1, hjlt2⟩).ResetCurrentWeight total),
      ?_, hjlt⟩
    show (match hs2.get? jbw.1 with
      | some hj => some (jbw.1, hs2.set jbw.1 (hj.ResetCurrentWeight total))
      | none => none) = _
    rw [List.get?_eq_get hjlt2]

/-- C3: `Next` returns `ErrNoActiveHost` iff the host list is empty; on every
nonempty host list (with the cursor in range, as the balancer maintains it)
`Next` returns some host — even when every host's breaker is open and no
permit is granted, via the remembered fallback host or the default one. -/
theorem wrrNext_noActiveHost_iff (s : WRRState)
    (hcursor : s.isSameWeight = true →
      0 ≤ s.totalWeight ∧ s.totalWeight < (s.hosts.length : Int)) :
    (wrrNext s = Except.error NextError.noActiveHost ↔ s.hosts = []) ∧
    (s.hosts ≠ [] →
      ∃ j s2, wrrNext s = Except.ok (j, s2) ∧ j < s.hosts.length) := by
  rcases s with ⟨hosts, same, tw⟩
  rcases hosts with _ | ⟨a, t⟩
  · exact ⟨by constructor <;> intro <;> rfl, fun h => absurd rfl h⟩
  rcases t with _ | ⟨b, t2⟩
  · refine ⟨?_, fun _ => ⟨0, ⟨[a], same, tw⟩, rfl, by simp⟩⟩
    constructor
    · intro herr
      cases herr
    · intro hempty
      cases hempty
  have hok : ∃ j s2,
      wrrNext ⟨a :: b :: t2, same, tw⟩ = Except.ok (j, s2)
        ∧ j < (a :: b :: t2).length := by
    rw [wrrNext_cons2]
    rcases hsame : same
    · rw [if_neg Bool.false_ne_true]
      obtain ⟨j, hs2, hj, hjlt⟩ := nextWeightRoundRobin_ok (a :: b :: t2) (by simp)
      rw [hj]
      exact ⟨j, _, rfl, hjlt⟩
    · rw [if_pos rfl]
      obtain ⟨hc0, hc1⟩ := hcursor (by rw [hsame])
      obtain ⟨j, tw2, hj, hjlt⟩ := nextRoundRobin_ok (a :: b :: t2) tw hc0 hc1
      rw [hj]
      exact ⟨j, _, rfl, hjlt⟩
  obtain ⟨j, s2, hok1, hok2⟩ := hok
  refine ⟨⟨fun herr => ?_, fun hempty => by cases hempty⟩, fun _ => ⟨j, s2, hok1, hok2⟩⟩
  rw [hok1] at herr
  cases herr

/-- C3 witness: two equal-weight hosts, both with open breakers and denied
permits, still yield a host from `Next` (never `ErrNoActiveHost`). -/
theorem wrrNext_noActiveHost_iff_witness :
    ∃ j s2,
      wrrNext ⟨[⟨"a", 1, 0, some ⟨CBState.openState, false⟩, 503⟩,
        ⟨"b", 1, 0, some ⟨CBState.openState, false⟩, 504⟩], true, 0⟩
          = Except.ok (j, s2) ∧ j < 2 :=
  (wrrNext_noActiveHost_iff
    ⟨[⟨"a", 1, 0, some ⟨CBState.openState, false⟩, 503⟩,
      ⟨"b", 1, 0, some ⟨CBState.openState, false⟩, 504⟩], true, 0⟩
    (fun _ => by constructor <;> decide)).2 (by decide)

/-! ## The weighted window distribution (smooth weighted round-robin)

The proof tracks, for each host, its current weight as a linear function of
the step count and of how often the host has been chosen, together with the
lower bound `currentWeight > -totalWeight`; at step `sum(wi)` these force
every host's pick count to equal its weight. -/

/-- Current weight at an index (0 when out of range). -/
def cwAt (hs : List LBHost) (i : Nat) : Int :=
  ((hs.get? i).map (fun h => h.currentWeight)).getD 0

/-- Weight at an index (0 when out of range). -/
def wAt (hs : List LBHost) (i : Nat) : Int :=
  ((hs.get? i).map (fun h => h.weight)).getD 0

/-- The best-candidate fold over a list of (already updated) current
weights, starting at index `i`. -/
def bestFoldCW : Option (Nat × Int) → Nat → List Int → Option (Nat × Int)
  | best, _, [] => best
  | best, i, c :: cs => bestFoldCW (bestUpdate best i c) (i + 1) cs

/-- On a list of hosts none of which is skipped, the weighted scan adds each
weight to its current weight, totals the weights, folds the best candidate
over the updated current weights, and leaves the fallback unchanged. -/
theorem wrrScanGo_healthy :
    ∀ (hs : List LBHost) (i : Nat) (acc : List LBHost) (total : Int)
      (best : Option (Nat × Int)) (fb : Option Nat),
      (∀ h ∈ hs, isSkipped h = false) →
      wrrScanGo hs i acc total best fb =
        (acc.reverse ++ hs.map LBHost.AddCurrentWeight, total + sumWeights hs,
          bestFoldCW best i (hs.map (fun h => h.AddCurrentWeight.currentWeight)), fb) := by
  intro hs
  induction hs with
  | nil =>
    intro i acc total best fb _
    rw [wrrScanGo]
    simp [sumWeights, bestFoldCW]
  | cons h rest ih =>
    intro i acc total best fb hh
    have hskh : isSkipped h = false := hh h (List.mem_cons_self h rest)
    have hstep : wrrScanGo (h :: rest) i acc total best fb =
        wrrScanGo rest (i + 1) (h.AddCurrentWeight :: acc) (total + h.weight)
          (bestUpdate best i h.AddCurrentWeight.currentWeight) fb := by
      rw [wrrScanGo, hskh]
      rw [if_neg Bool.false_ne_true]
    rw [hstep, ih (i + 1) _ _ _ _ (fun x hx => hh x (List.mem_cons_of_mem h hx))]
    refine congrArg₂ _ ?_ (congrArg₂ _ ?_ rfl)
    · simp
    · show total + h.weight + sumWeights rest = total + sumWeights (h :: rest)
      simp [sumWeights]
      ring

/-- The fold started from a provisional best returns a candidate at least as
large as the provisional one and as every listed value, located either at the
provisional index or inside the list. -/
theorem bestFoldCW_some_spec :
    ∀ (cs : List Int) (i j0 : Nat) (b0 : Int),
      ∃ j b, bestFoldCW (some (j0, b0)) i cs = some (j, b) ∧
        b0 ≤ b ∧ (∀ x ∈ cs, x ≤ b) ∧
        ((j = j0 ∧ b = b0) ∨ ∃ t, t < cs.length ∧ j = i + t ∧ cs.get? t = some b) := by
  intro cs
  induction cs with
  | nil =>
    intro i j0 b0
    exact ⟨j0, b0, rfl, le_refl b0, fun x hx => absurd hx (List.not_mem_nil x),
      Or.inl ⟨rfl, rfl⟩⟩
  | cons c cs ih =>
    intro i j0 b0
    by_cases hc : b0 < c
    · have hred : bestFoldCW (some (j0, b0)) i (c :: cs)
          = bestFoldCW (some (i, c)) (i + 1) cs := by
        rw [bestFoldCW]
        rw [bestUpdate, if_pos hc]
      obtain ⟨j, b, heq, hge, hall, hloc⟩ := ih (i + 1) i c
      refine ⟨j, b, by rw [hred, heq], le_of_lt (lt_of_lt_of_le hc hge), ?_, ?_⟩
      · intro x hx
        rcases List.mem_cons.mp hx with hx | hx
        · exact hx ▸ hge
        · exact hall x hx
      · rcases hloc with ⟨hj, hb⟩ | ⟨t, ht, hj, hget⟩
        · exact Or.inr ⟨0, Nat.succ_pos _, by omega, by rw [hb]; rfl⟩
        · exact Or.inr ⟨t + 1, by simpa using ht, by omega, by simpa using hget⟩
    · have hred : bestFoldCW (some (j0, b0)) i (c :: cs)
          = bestFoldCW (some (j0, b0)) (i + 1) cs := by
        rw [bestFoldCW]
        rw [bestUpdate, if_neg hc]
      obtain ⟨j, b, heq, hge, hall, hloc⟩ := ih (i + 1) j0 b0
      refine ⟨j, b, by rw [hred, heq], hge, ?_, ?_⟩
      · intro x hx
        rcases List.mem_cons.mp hx with hx | hx
        · exact hx ▸ le_trans (le_of_not_lt hc) hge
        · exact hall x hx
      · rcases hloc with hbase | ⟨t, ht, hj, hget⟩
        · exact Or.inl hbase
        · exact Or.inr ⟨t + 1, by simpa using ht, by omega, by simpa using hget⟩

/-- The fold started from no candidate over a nonempty list returns an index
into the list holding a maximal value. -/
theorem bestFoldCW_none_spec (c : Int) (cs : List Int) (i : Nat) :
    ∃ j b, bestFoldCW none i (c :: cs) = some (j, b) ∧
      (∀ x ∈ c :: cs, x ≤ b) ∧
      ∃ t, t < (c :: cs).length ∧ j = i + t ∧ (c :: cs).get? t = some b := by
  have hred : bestFoldCW none i (c :: cs) = bestFoldCW (some (i, c)) (i + 1) cs := by
    rw [bestFoldCW]
    rfl
  obtain ⟨j, b, heq, hge, hall, hloc⟩ := bestFoldCW_some_spec cs (i + 1) i c
  refine ⟨j, b, by rw [hred, heq], ?_, ?_⟩
  · intro x hx
    rcases List.mem_cons.mp hx with hx | hx
    · exact hx ▸ hge
    · exact hall x hx
  · rcases hloc with ⟨hj, hb⟩ | ⟨t, ht, hj, hget⟩
    · exact ⟨0, Nat.succ_pos _, by omega, by rw [hb]; rfl⟩
    · exact ⟨t + 1, by simpa using ht, by omega, by simpa using hget⟩

/-- The fold started from no candidate over any nonempty list returns an
index into the list holding a maximal value. -/
theorem bestFoldCW_ne_nil_spec (cl : List Int) (hne : cl ≠ []) (i : Nat) :
    ∃ j b, bestFoldCW none i cl = some (j, b) ∧
      (∀ x ∈ cl, x ≤ b) ∧
      ∃ t, t < cl.length ∧ j = i + t ∧ cl.get? t = some b := by
  rcases cl with _ | ⟨c, cs⟩
  · exact absurd rfl hne
  · exact bestFoldCW_none_spec c cs i

/-- The updated current-weight list, entrywise. -/
theorem cwlGet (hs : List LBHost) (i : Nat) :
    (hs.map (fun h => h.AddCurrentWeight.currentWeight))[i]?
      = (hs[i]?).map (fun h => h.currentWeight + h.weight) := by
  rw [List.getElem?_map]
  rfl

/-- On a nonempty list of hosts none of which is skipped, the weighted path
chooses an index maximising the updated current weight, adds every weight to
its host's current weight, and subtracts the weight total from the winner. -/
theorem nextWeightRoundRobin_healthy (hs : List LBHost) (hne : hs ≠ [])
    (hh : ∀ h ∈ hs, isSkipped h = false) :
    ∃ j st2, nextWeightRoundRobin hs = some (j, st2) ∧ j < hs.length ∧
      st2.length = hs.length ∧
      (∀ i, i ≠ j → st2[i]? = (hs[i]?).map LBHost.AddCurrentWeight) ∧
      st2[j]? = (hs[j]?).map
        (fun h => (h.AddCurrentWeight).ResetCurrentWeight (sumWeights hs)) ∧
      (∀ i, i < hs.length → cwAt hs i + wAt hs i ≤ cwAt hs j + wAt hs j) := by
  have hcwlne : hs.map (fun h => h.AddCurrentWeight.currentWeight) ≠ [] := by
    intro hc
    exact hne (List.map_eq_nil.mp hc)
  obtain ⟨j, b, hbest, hall, t, ht, hjt, hget⟩ :=
    bestFoldCW_ne_nil_spec (hs.map (fun h => h.AddCurrentWeight.currentWeight)) hcwlne 0
  have hjlt : j < hs.length := by
    have hl : (hs.map (fun h => h.AddCurrentWeight.currentWeight)).length = hs.length :=
      List.length_map _ _
    omega
  have hscan := wrrScanGo_healthy hs 0 [] 0 none none hh
  rw [zero_add] at hscan
  simp only [List.reverse_nil, List.nil_append] at hscan
  obtain ⟨hostj, hhostj⟩ : ∃ hj, hs[j]? = some hj :=
    ⟨_, List.getElem?_eq_getElem hjlt⟩
  have hbval : b = hostj.currentWeight + hostj.weight := by
    have h1 := cwlGet hs j
    rw [List.get?_eq_getElem?] at hget
    rw [show t = j from by omega] at hget
    rw [hget, hhostj] at h1
    cases h1
    rfl
  have hAget : (hs.map LBHost.AddCurrentWeight)[j]? = some hostj.AddCurrentWeight := by
    rw [List.getElem?_map, hhostj]
    rfl
  refine ⟨j, (hs.map LBHost.AddCurrentWeight).set j
      (hostj.AddCurrentWeight.ResetCurrentWeight (sumWeights hs)),
    ?_, hjlt, ?_, ?_, ?_, ?_⟩
  · rw [nextWeightRoundRobin, hscan, hbest]
    show (match (hs.map LBHost.AddCurrentWeight).get? j with
      | some hj => some (j, (hs.map LBHost.AddCurrentWeight).set j
          (hj.ResetCurrentWeight (sumWeights hs)))
      | none => none) = _
    rw [List.get?_eq_getElem?, hAget]
  · rw [List.length_set, List.length_map]
  · intro i hij
    rw [List.getElem?_set_ne (Ne.symm hij), List.getElem?_map]
  · rw [List.getElem?_set_self (by rw [List.length_map]; exact hjlt), hhostj]
    rfl
  · intro i hi
    obtain ⟨hosti, hhosti⟩ : ∃ x, hs[i]? = some x :=
      ⟨_, List.getElem?_eq_getElem hi⟩
    have hgi : (hs.map (fun h => h.AddCurrentWeight.currentWeight))[i]?
        = some (cwAt hs i + wAt hs i) := by
      rw [cwlGet, hhosti]
      show some (hosti.currentWeight + hosti.weight) = _
      simp [cwAt, wAt, List.get?_eq_getElem?, hhosti]
    have hmem : (cwAt hs i + wAt hs i)
        ∈ hs.map (fun h => h.AddCurrentWeight.currentWeight) := by
      rw [← List.get?_eq_getElem?] at hgi
      exact List.get?_mem hgi
    have hle := hall _ hmem
    have hbj : cwAt hs j + wAt hs j = b := by
      rw [hbval]
      simp [cwAt, wAt, List.get?_eq_getElem?, hhostj]
    rw [hbj]
    exact hle

/-- Reading the current weight through a successful index lookup. -/
theorem cwAt_of_getElem {hs : List LBHost} {i : Nat} {h : LBHost}
    (hg : hs[i]? = some h) : cwAt hs i = h.currentWeight := by
  rw [cwAt, List.get?_eq_getElem?, hg]
  rfl

/-- Reading the weight through a successful index lookup. -/
theorem wAt_of_getElem {hs : List LBHost} {i : Nat} {h : LBHost}
    (hg : hs[i]? = some h) : wAt hs i = h.weight := by
  rw [wAt, List.get?_eq_getElem?, hg]
  rfl

/-- Hosts with positive weights have positive weights at every index. -/
theorem wAt_ge_one {hs : List LBHost} (hwt : ∀ h ∈ hs, 1 ≤ h.weight)
    {i : Nat} (hi : i < hs.length) : 1 ≤ wAt hs i := by
  obtain ⟨h, hg⟩ : ∃ h, hs[i]? = some h := ⟨_, List.getElem?_eq_getElem hi⟩
  rw [wAt_of_getElem hg]
  exact hwt h (by rw [← List.get?_eq_getElem?] at hg; exact List.get?_mem hg)

/-- The indexwise weight sum is the weight total. -/
theorem sum_wAt (hs : List LBHost) :
    ∑ i in Finset.range hs.length, wAt hs i = sumWeights hs := by
  induction hs with
  | nil => simp [sumWeights]
  | cons h t ih =>
    show ∑ i in Finset.range (t.length + 1), wAt (h :: t) i = sumWeights (h :: t)
    rw [Finset.sum_range_succ']
    have h1 : ∀ i, wAt (h :: t) (i + 1) = wAt t i := fun i => rfl
    have h2 : wAt (h :: t) 0 = h.weight := rfl
    rw [Finset.sum_congr rfl (fun i _ => h1 i), ih, h2]
    show sumWeights t + h.weight = sumWeights (h :: t)
    simp [sumWeights]
    ring

/-- A nonempty list of positive-weight hosts has weight total at least its
length. -/
theorem sumWeights_ge_length {hs : List LBHost} (hwt : ∀ h ∈ hs, 1 ≤ h.weight) :
    (hs.length : Int) ≤ sumWeights hs := by
  rw [← sum_wAt hs]
  calc (hs.length : Int) = ∑ _i in Finset.range hs.length, (1 : Int) := by simp
    _ ≤ ∑ i in Finset.range hs.length, wAt hs i :=
        Finset.sum_le_sum (fun i hi => wAt_ge_one hwt (Finset.mem_range.mp hi))

/-- Counts of in-range values sum to the list length. -/
theorem count_sum_length (l : List Nat) (n : Nat) (hl : ∀ p ∈ l, p < n) :
    ∑ i in Finset.range n, l.count i = l.length := by
  induction l with
  | nil => simp
  | cons p t ih =>
    have hp : p < n := hl p (List.mem_cons_self p t)
    have ht : ∀ q ∈ t, q < n := fun q hq => hl q (List.mem_cons_of_mem p hq)
    have hcnt : ∀ i, (p :: t).count i = t.count i + if i = p then 1 else 0 := by
      intro i
      rw [List.count_cons]
      congr 1
      by_cases hip : i = p
      · rw [if_pos (beq_iff_eq.mpr hip.symm), if_pos hip]
      · rw [if_neg (by simp [beq_iff_eq]; exact fun hpi => hip hpi.symm), if_neg hip]
    rw [Finset.sum_congr rfl (fun i _ => hcnt i), Finset.sum_add_distrib, ih ht,
      Finset.sum_ite_eq' (Finset.range n) p (fun _ => 1),
      if_pos (Finset.mem_range.mpr hp)]
    rfl

/-- `isSkipped` reads only the health policy. -/
theorem isSkipped_congr {h h2 : LBHost} (hp : h.policy = h2.policy) :
    isSkipped h = isSkipped h2 := by
  rw [isSkipped, isSkipped, hp]

/-- The invariant tying a balancer host list after `k` weighted selections to
the starting hosts `hs0` and the selection indices made so far: weights and
policies are untouched, and every current weight equals
`k·wᵢ - countᵢ·W`, strictly above `-W`. -/
structure WInv (hs0 : List LBHost) (k : Nat) (st : List LBHost)
    (picks : List Nat) : Prop where
  hlen : st.length = hs0.length
  hwproj : ∀ i : Nat, (st[i]?).map (fun (h : LBHost) => h.weight)
    = (hs0[i]?).map (fun (h : LBHost) => h.weight)
  hpol : ∀ i : Nat, (st[i]?).map (fun (h : LBHost) => h.policy)
    = (hs0[i]?).map (fun (h : LBHost) => h.policy)
  hpick_len : picks.length = k
  hpick_lt : ∀ p ∈ picks, p < hs0.length
  hcw : ∀ i, i < hs0.length →
    cwAt st i = (k : Int) * wAt hs0 i - (picks.count i : Int) * sumWeights hs0
  hlb : ∀ i, i < hs0.length → -(sumWeights hs0) < cwAt st i

/-- Weights agree pointwise under the invariant. -/
theorem WInv.wAt_eq {hs0 : List LBHost} {k : Nat} {st : List LBHost}
    {picks : List Nat} (inv : WInv hs0 k st picks) (i : Nat) :
    wAt st i = wAt hs0 i := by
  rw [wAt, wAt, List.get?_eq_getElem?, List.get?_eq_getElem?, inv.hwproj i]

/-- The weight total is preserved under the invariant. -/
theorem WInv.sumWeights_eq {hs0 : List LBHost} {k : Nat} {st : List LBHost}
    {picks : List Nat} (inv : WInv hs0 k st picks) :
    sumWeights st = sumWeights hs0 := by
  rw [← sum_wAt st, ← sum_wAt hs0, inv.hlen]
  exact Finset.sum_congr rfl (fun i _ => inv.wAt_eq i)

/-- One weighted selection step preserves the invariant and chooses an
in-range host. -/
theorem WInv_step (hs0 : List LBHost) (hne : hs0 ≠ [])
    (hwt : ∀ h ∈ hs0, 1 ≤ h.weight) (hh : ∀ h ∈ hs0, isSkipped h = false)
    (k : Nat) (st : List LBHost) (picks : List Nat)
    (inv : WInv hs0 k st picks) :
    ∃ j st2, nextWeightRoundRobin st = some (j, st2) ∧ j < hs0.length ∧
      WInv hs0 (k + 1) st2 (picks ++ [j]) := by
  have hlpos : 0 < hs0.length := List.length_pos.mpr hne
  have hstne : st ≠ [] := by
    rw [← List.length_pos, inv.hlen]
    exact hlpos
  have hsthealthy : ∀ h ∈ st, isSkipped h = false := by
    intro h hmem
    obtain ⟨n, hn⟩ := List.get?_of_mem hmem
    rw [List.get?_eq_getElem?] at hn
    have hpol := inv.hpol n
    rw [hn] at hpol
    rcases hh0 : hs0[n]? with _ | h0
    · rw [hh0] at hpol
      cases hpol
    · rw [hh0] at hpol
      have hpe : h.policy = h0.policy := by
        have := Option.some.inj hpol
        exact this
      have hmem0 : h0 ∈ hs0 := by
        rw [← List.get?_eq_getElem?] at hh0
        exact List.get?_mem hh0
      rw [isSkipped_congr hpe]
      exact hh h0 hmem0
  obtain ⟨j, st2, hnext, hjlt, hlen2, hget_ne, hget_j, hmax⟩ :=
    nextWeightRoundRobin_healthy st hstne hsthealthy
  have hjlt0 : j < hs0.length := by rw [← inv.hlen]; exact hjlt
  have hsumW : sumWeights st = sumWeights hs0 := inv.sumWeights_eq
  have hWn : (hs0.length : Int) ≤ sumWeights hs0 := sumWeights_ge_length hwt
  have hWpos : 0 < sumWeights hs0 :=
    lt_of_lt_of_le (by exact_mod_cast hlpos) hWn
  have hcnts : ∑ i in Finset.range hs0.length, (picks.count i : Int) = (k : Int) := by
    have h1 := count_sum_length picks hs0.length inv.hpick_lt
    have h2 : ((∑ i in Finset.range hs0.length, picks.count i : Nat) : Int)
        = ((picks.length : Nat) : Int) := by rw [h1]
    push_cast at h2
    rw [inv.hpick_len] at h2
    exact h2
  have hsum_cw : ∑ i in Finset.range hs0.length, cwAt st i = 0 := by
    rw [Finset.sum_congr rfl (fun i hi => inv.hcw i (Finset.mem_range.mp hi)),
      Finset.sum_sub_distrib, ← Finset.mul_sum, ← Finset.sum_mul, sum_wAt, hcnts]
    ring
  have hsum_a : ∑ i in Finset.range hs0.length, (cwAt st i + wAt st i)
      = sumWeights hs0 := by
    rw [Finset.sum_add_distrib, hsum_cw, zero_add,
      Finset.sum_congr rfl (fun i _ => inv.wAt_eq i), sum_wAt]
  have hbpos : 0 < cwAt st j + wAt st j := by
    by_contra hb
    push_neg at hb
    have hle : ∀ i ∈ Finset.range hs0.length, cwAt st i + wAt st i ≤ 0 := by
      intro i hi
      exact le_trans
        (hmax i (by rw [inv.hlen]; exact Finset.mem_range.mp hi)) hb
    have hsle := Finset.sum_nonpos hle
    rw [hsum_a] at hsle
    omega
  obtain ⟨hostj, hhostj⟩ : ∃ x, st[j]? = some x := ⟨_, List.getElem?_eq_getElem hjlt⟩
  have hget_j2 : st2[j]?
      = some ((hostj.AddCurrentWeight).ResetCurrentWeight (sumWeights hs0)) := by
    rw [hget_j, hhostj, hsumW]
    rfl
  have hcount_app : ∀ i : Nat, (picks ++ [j]).count i
      = picks.count i + if i = j then 1 else 0 := by
    intro i
    rw [List.count_append]
    congr 1
    rw [List.count_singleton]
    by_cases hij : i = j
    · rw [if_pos (beq_iff_eq.mpr hij.symm), if_pos hij]
    · rw [if_neg (by simp [beq_iff_eq]; exact fun hji => hij hji.symm), if_neg hij]
  have hcw2_j : cwAt st2 j = cwAt st j + wAt st j - sumWeights hs0 := by
    have hv : ((hostj.AddCurrentWeight).ResetCurrentWeight (sumWeights hs0)).currentWeight
        = hostj.currentWeight + hostj.weight - sumWeights hs0 := rfl
    rw [cwAt_of_getElem hget_j2, hv, cwAt_of_getElem hhostj, wAt_of_getElem hhostj]
  have hcw2_ne : ∀ i, i ≠ j → i < hs0.length → cwAt st2 i = cwAt st i + wAt st i := by
    intro i hij hi
    obtain ⟨hosti, hhosti⟩ : ∃ x, st[i]? = some x :=
      ⟨_, List.getElem?_eq_getElem (by rw [inv.hlen]; exact hi)⟩
    have h2 : st2[i]? = some hosti.AddCurrentWeight := by
      rw [hget_ne i hij, hhosti]
      rfl
    rw [cwAt_of_getElem h2, cwAt_of_getElem hhosti, wAt_of_getElem hhosti]
    rfl
  refine ⟨j, st2, hnext, hjlt0, ?_, ?_, ?_, ?_, ?_, ?_, ?_⟩
  · rw [hlen2, inv.hlen]
  · intro i
    by_cases hij : i = j
    · subst hij
      rw [hget_j2, ← inv.hwproj i, hhostj]
      rfl
    · rw [hget_ne i hij, ← inv.hwproj i]
      rcases hsi : st[i]? with _ | x
      · rfl
      · rfl
  · intro i
    by_cases hij : i = j
    · subst hij
      rw [hget_j2, ← inv.hpol i, hhostj]
      rfl
    · rw [hget_ne i hij, ← inv.hpol i]
      rcases hsi : st[i]? with _ | x
      · rfl
      · rfl
  · simp [inv.hpick_len]
  · intro p hp
    rcases List.mem_append.mp hp with hp | hp
    · exact inv.hpick_lt p hp
    · rw [List.mem_singleton.mp hp]
      exact hjlt0
  · intro i hi
    have hcnt2 : (((picks ++ [j]).count i : Nat) : Int)
        = (picks.count i : Int) + if i = j then 1 else 0 := by
      rw [hcount_app i]
      push_cast
      rfl
    by_cases hij : i = j
    · subst hij
      rw [hcw2_j, inv.hcw i hi, inv.wAt_eq i, hcnt2, if_pos rfl]
      push_cast
      ring
    · rw [hcw2_ne i hij hi, inv.hcw i hi, inv.wAt_eq i, hcnt2, if_neg hij]
      push_cast
      ring
  · intro i hi
    by_cases hij : i = j
    · subst hij
      rw [hcw2_j]
      omega
    · rw [hcw2_ne i hij hi]
      have h1 := inv.hlb i hi
      have h2 : 1 ≤ wAt st i := by
        rw [inv.wAt_eq i]
        exact wAt_ge_one hwt hi
      omega

/-- Reduction of `Next` in the weighted regime. -/
theorem wrrNext_weighted_eq (s : WRRState) (hlen : 2 ≤ s.hosts.length)
    (hsame : s.isSameWeight = false) :
    wrrNext s = match nextWeightRoundRobin s.hosts with
      | some (j, hs2) => Except.ok (j, { s with hosts := hs2 })
      | none => Except.error NextError.indexOutOfRange := by
  rcases s with ⟨hosts, same, tw⟩
  rcases hosts with _ | ⟨a, t⟩
  · simp at hlen
  rcases t with _ | ⟨b, t2⟩
  · simp at hlen
  rw [wrrNext_cons2, show same = false from hsame, if_neg Bool.false_ne_true]

/-- Iterating `Next` in the weighted regime keeps the invariant. -/
theorem wrrIter_weighted (hs0 : List LBHost) (hne : hs0 ≠ [])
    (hwt : ∀ h ∈ hs0, 1 ≤ h.weight) (hh : ∀ h ∈ hs0, isSkipped h = false)
    (hn2 : 2 ≤ hs0.length) :
    ∀ (m : Nat) (s : WRRState) (k : Nat) (picks : List Nat),
      s.isSameWeight = false → WInv hs0 k s.hosts picks →
      ∃ future sf, wrrIter s m = some (future, sf) ∧
        WInv hs0 (k + m) sf.hosts (picks ++ future) := by
  intro m
  induction m with
  | zero =>
    intro s k picks hsame inv
    exact ⟨[], s, rfl, by simpa using inv⟩
  | succ n ih =>
    intro s k picks hsame inv
    obtain ⟨j, st2, hnext, hjlt, inv2⟩ := WInv_step hs0 hne hwt hh k s.hosts picks inv
    have hred := wrrNext_weighted_eq s (by rw [inv.hlen]; exact hn2) hsame
    rw [hnext] at hred
    obtain ⟨future, sf, hiter, invf⟩ :=
      ih { s with hosts := st2 } (k + 1) (picks ++ [j]) hsame inv2
    refine ⟨j :: future, sf, ?_, ?_⟩
    · rw [wrrIter, hred]
      show (match wrrIter
          { hosts := st2, isSameWeight := s.isSameWeight,
            totalWeight := s.totalWeight } n with
        | some (ps, sfin) => some (j :: ps, sfin)
        | none => none) = some (j :: future, sf)
      rw [hiter]
    · rw [show k + (n + 1) = (k + 1) + n from by omega,
        show picks ++ j :: future = (picks ++ [j]) ++ future from by simp]
      exact invf

/-- At step `W = sum of the weights`, the invariant forces each pick count to
equal the host's weight. -/
theorem WInv_extract (hs0 : List LBHost) (hne : hs0 ≠ [])
    (hwt : ∀ h ∈ hs0, 1 ≤ h.weight) (st : List LBHost) (picks : List Nat)
    (inv : WInv hs0 (sumWeights hs0).toNat st picks) :
    ∀ i, i < hs0.length → (picks.count i : Int) = wAt hs0 i := by
  have hlpos : 0 < hs0.length := List.length_pos.mpr hne
  have hWn : (hs0.length : Int) ≤ sumWeights hs0 := sumWeights_ge_length hwt
  have hWpos : 0 < sumWeights hs0 :=
    lt_of_lt_of_le (by exact_mod_cast hlpos) hWn
  have hWcast : (((sumWeights hs0).toNat : Nat) : Int) = sumWeights hs0 :=
    Int.toNat_of_nonneg (le_of_lt hWpos)
  have hle : ∀ i, i < hs0.length → (picks.count i : Int) ≤ wAt hs0 i := by
    intro i hi
    have h1 := inv.hcw i hi
    have h2 := inv.hlb i hi
    rw [hWcast] at h1
    by_contra hgt
    push_neg at hgt
    have hd : wAt hs0 i - (picks.count i : Int) ≤ -1 := by omega
    have hmul := mul_le_mul_of_nonneg_left hd (le_of_lt hWpos)
    have hexp : sumWeights hs0 * (wAt hs0 i - (picks.count i : Int))
        = sumWeights hs0 * wAt hs0 i - (picks.count i : Int) * sumWeights hs0 := by
      ring
    have hW1 : sumWeights hs0 * (-1 : Int) = -(sumWeights hs0) := by ring
    rw [hexp, hW1] at hmul
    rw [h1] at h2
    linarith
  have hsum_counts : ∑ i in Finset.range hs0.length, (picks.count i : Int)
      = sumWeights hs0 := by
    have h1 := count_sum_length picks hs0.length inv.hpick_lt
    have h2 : ((∑ i in Finset.range hs0.length, picks.count i : Nat) : Int)
        = ((picks.length : Nat) : Int) := by rw [h1]
    push_cast at h2
    rw [inv.hpick_len, hWcast] at h2
    exact h2
  have hzero : ∑ i in Finset.range hs0.length,
      (wAt hs0 i - (picks.count i : Int)) = 0 := by
    rw [Finset.sum_sub_distrib, sum_wAt, hsum_counts, sub_self]
  have hall0 := (Finset.sum_eq_zero_iff_of_nonneg (fun i hi => by
    have := hle i (Finset.mem_range.mp hi)
    omega)).mp hzero
  intro i hi
  have := hall0 i (Finset.mem_range.mpr hi)
  omega

/-- With at least two equal-weight healthy hosts and cursor `c`, `Next`
returns the host at `c` and advances the cursor cyclically. -/
theorem wrrNext_rr_healthy (hs : List LBHost) (same : Bool)
    (hn2 : 2 ≤ hs.length) (hsame : same = true)
    (hh : ∀ h ∈ hs, isSkipped h = false)
    (c : Nat) (hc : c < hs.length) :
    wrrNext ⟨hs, same, (c : Int)⟩ =
      Except.ok (c, ⟨hs, same, (((c + 1) % hs.length : Nat) : Int)⟩) := by
  rcases hs with _ | ⟨a, t⟩
  · simp at hn2
  rcases t with _ | ⟨b, t2⟩
  · simp at hn2
  have hidxv : ((((0 : Nat) : Int) + (c : Int))
      % (((a :: b :: t2).length : Nat) : Int)).toNat = c := by
    rw [Nat.cast_zero, zero_add,
      Int.emod_eq_of_lt (Int.natCast_nonneg c) (by exact_mod_cast hc),
      Int.toNat_natCast]
  obtain ⟨hsel, hget⟩ : ∃ x, (a :: b :: t2).get? c = some x := ⟨_, List.get?_eq_get hc⟩
  have hget2 : (a :: b :: t2).get? ((((0 : Nat) : Int) + (c : Int))
      % (((a :: b :: t2).length : Nat) : Int)).toNat = some hsel := by
    rw [hidxv]
    exact hget
  have hskel : isSkipped hsel = false := hh hsel (List.get?_mem hget)
  have hfind : rrFindAux (a :: b :: t2) (c : Int) 0 (t2.length + 1 + 1) none
      = (some c, none) := by
    rw [rrFindAux, hget2]
    show (if isSkipped hsel = true then
        rrFindAux (a :: b :: t2) (c : Int) (0 + 1) (t2.length + 1)
          (if (hsel.GetLastHTTPErrorStatus).2 = true then none
           else some ((((0 : Nat) : Int) + (c : Int))
             % (((a :: b :: t2).length : Nat) : Int)).toNat)
      else (some ((((0 : Nat) : Int) + (c : Int))
        % (((a :: b :: t2).length : Nat) : Int)).toNat, none)) = (some c, none)
    rw [if_neg (by simp [hskel]), hidxv]
  have hfind2 : rrFindAux (a :: b :: t2) (c : Int) 0 ((a :: b :: t2).length) none
      = (some c, none) := hfind
  have hnrr : nextRoundRobin (a :: b :: t2) (c : Int)
      = some (c, ((c : Int) + 1) % (((a :: b :: t2).length : Nat) : Int)) := by
    rw [nextRoundRobin, hfind2]
  rw [wrrNext_cons2, hsame, if_pos rfl, hnrr]
  have hcast : ((c : Int) + 1) % (((a :: b :: t2).length : Nat) : Int)
      = ((((c + 1) % (a :: b :: t2).length : Nat)) : Int) := by
    push_cast
    rfl
  rw [hcast]

/-- Iterating `Next` over equal-weight healthy hosts cycles through the
indices from the cursor. -/
theorem wrrIter_rr (hs : List LBHost) (same : Bool)
    (hn2 : 2 ≤ hs.length) (hsame : same = true)
    (hh : ∀ h ∈ hs, isSkipped h = false) :
    ∀ (m c : Nat), c < hs.length →
      ∃ sf, wrrIter ⟨hs, same, (c : Int)⟩ m
        = some ((List.range m).map (fun x => (x + c) % hs.length), sf) := by
  intro m
  induction m with
  | zero =>
    intro c hc
    exact ⟨⟨hs, same, (c : Int)⟩, rfl⟩
  | succ n ih =>
    intro c hc
    have hstep := wrrNext_rr_healthy hs same hn2 hsame hh c hc
    have hlpos : 0 < hs.length := by omega
    have hc2 : (c + 1) % hs.length < hs.length := Nat.mod_lt _ hlpos
    obtain ⟨sf, hiter⟩ := ih ((c + 1) % hs.length) hc2
    refine ⟨sf, ?_⟩
    rw [wrrIter, hstep]
    show (match wrrIter ⟨hs, same, (((c + 1) % hs.length : Nat) : Int)⟩ n with
      | some (ps, sfin) => some (c :: ps, sfin)
      | none => none) = _
    rw [hiter]
    have hfun : ((fun x => (x + c) % hs.length) ∘ Nat.succ)
        = (fun x => (x + (c + 1) % hs.length) % hs.length) := by
      funext x
      show (x + 1 + c) % hs.length = (x + (c + 1) % hs.length) % hs.length
      rw [Nat.add_mod_mod]
      congr 1
      omega
    have hlist : (List.range (n + 1)).map (fun x => (x + c) % hs.length)
        = c :: (List.range n).map (fun x => (x + (c + 1) % hs.length) % hs.length) := by
      rw [List.range_succ_eq_map, List.map_cons, List.map_map, hfun]
      congr 1
      show (0 + c) % hs.length = c
      rw [Nat.zero_add, Nat.mod_eq_of_lt hc]
    rw [hlist]

/-- Counting the residues of `0, …, n·w - 1` modulo `n`: each in-range value
appears exactly `w` times. -/
theorem count_range_mod (n w i : Nat) (hn : 0 < n) (hi : i < n) :
    ((List.range (n * w)).map (fun x => x % n)).count i = w := by
  induction w with
  | zero => simp
  | succ v ih =>
    rw [Nat.mul_succ, List.range_add, List.map_append, List.count_append, ih]
    have hblock : (List.range n).map ((fun x => x % n) ∘ (fun y => n * v + y))
        = List.range n := by
      have hcongr : ∀ y ∈ List.range n,
          ((fun x => x % n) ∘ (fun y => n * v + y)) y = id y := by
        intro y hy
        show (n * v + y) % n = y
        rw [Nat.add_comm, Nat.add_mul_mod_self_left,
          Nat.mod_eq_of_lt (List.mem_range.mp hy)]
      rw [List.map_congr_left hcongr, List.map_id]
    rw [List.map_map, hblock]
    have hcount1 : (List.range n).count i = 1 := by
      have hnd := List.nodup_range n
      have hmem : i ∈ List.range n := List.mem_range.mpr hi
      have hle := List.nodup_iff_count_le_one.mp hnd i
      have hpos := List.count_pos_iff_mem.mpr hmem
      omega
    rw [hcount1]

/-- A single host is returned unconditionally and the state never changes. -/
theorem wrrIter_single (a : LBHost) (same : Bool) (tw : Int) :
    ∀ m, wrrIter ⟨[a], same, tw⟩ m
      = some (List.replicate m 0, ⟨[a], same, tw⟩) := by
  intro m
  induction m with
  | zero => rfl
  | succ n ih =>
    rw [wrrIter]
    show (match wrrIter ⟨[a], same, tw⟩ n with
      | some (ps, sfin) => some (0 :: ps, sfin)
      | none => none) = _
    rw [ih]
    rfl

/-- C4: starting from a freshly refreshed balancer over healthy hosts with
positive weights and zeroed current weights, a window of `sum(wi)` calls of
`Next` chooses host `i` exactly `wi` times; in particular for weights
`5, 2, 1` the first five selections are `[H1, H2, H1, H1, H3]`
(indices `[0, 1, 0, 0, 2]`). -/
theorem wrr_window_distribution :
    (∀ hs0 : List LBHost, hs0 ≠ [] →
      (∀ h ∈ hs0, 1 ≤ h.weight) →
      (∀ h ∈ hs0, h.currentWeight = 0) →
      (∀ h ∈ hs0, isSkipped h = false) →
      ∃ picks sf,
        wrrIter (refreshState hs0) (sumWeights hs0).toNat = some (picks, sf) ∧
        ∀ i, i < hs0.length → (picks.count i : Int) = wAt hs0 i) ∧
    ((wrrIter (refreshState
        [⟨"h1", 5, 0, none, 0⟩, ⟨"h2", 2, 0, none, 0⟩, ⟨"h3", 1, 0, none, 0⟩]) 5).map
      (fun pr => pr.1) = some [0, 1, 0, 0, 2]) := by
  constructor
  · intro hs0 hne hwt hcw0 hh
    have hlpos : 0 < hs0.length := List.length_pos.mpr hne
    have hWn : (hs0.length : Int) ≤ sumWeights hs0 := sumWeights_ge_length hwt
    have hWpos : 0 < sumWeights hs0 :=
      lt_of_lt_of_le (by exact_mod_cast hlpos) hWn
    have hWcast : (((sumWeights hs0).toNat : Nat) : Int) = sumWeights hs0 :=
      Int.toNat_of_nonneg (le_of_lt hWpos)
    rcases hs0 with _ | ⟨h0, rest⟩
    · exact absurd rfl hne
    rcases rest with _ | ⟨h1, rest2⟩
    · -- single host
      have hiter := wrrIter_single h0 true 0 (sumWeights [h0]).toNat
      refine ⟨List.replicate (sumWeights [h0]).toNat 0, ⟨[h0], true, 0⟩, hiter, ?_⟩
      intro i hi
      have hi0 : i = 0 := by simp at hi; exact hi
      subst hi0
      rw [List.count_replicate_self]
      have hsw : sumWeights [h0] = h0.weight := by simp [sumWeights]
      rw [show wAt [h0] 0 = h0.weight from rfl, hWcast, hsw]
    rcases hall : (h1 :: rest2).all (fun h => h.weight == h0.weight) with _ | _
    · -- unequal weights: smooth weighted round-robin
      have hre : refreshState (h0 :: h1 :: rest2)
          = ⟨h0 :: h1 :: rest2, false, sumWeights (h0 :: h1 :: rest2)⟩ := by
        rw [refreshState]
        simp only [hall]
        rfl
      have hn2 : 2 ≤ (h0 :: h1 :: rest2).length := by simp
      have hinv : WInv (h0 :: h1 :: rest2) 0 (h0 :: h1 :: rest2) [] := by
        refine ⟨rfl, fun i => rfl, fun i => rfl, rfl, fun p hp => absurd hp (List.not_mem_nil p), ?_, ?_⟩
        · intro i hi
          obtain ⟨hosti, hgi⟩ : ∃ x, (h0 :: h1 :: rest2)[i]? = some x :=
            ⟨_, List.getElem?_eq_getElem hi⟩
          rw [cwAt_of_getElem hgi,
            hcw0 hosti (by rw [← List.get?_eq_getElem?] at hgi; exact List.get?_mem hgi)]
          simp
        · intro i hi
          obtain ⟨hosti, hgi⟩ : ∃ x, (h0 :: h1 :: rest2)[i]? = some x :=
            ⟨_, List.getElem?_eq_getElem hi⟩
          rw [cwAt_of_getElem hgi,
            hcw0 hosti (by rw [← List.get?_eq_getElem?] at hgi; exact List.get?_mem hgi)]
          omega
      obtain ⟨future, sf, hiter, invf⟩ :=
        wrrIter_weighted (h0 :: h1 :: rest2) hne hwt hh hn2
          (sumWeights (h0 :: h1 :: rest2)).toNat
          ⟨h0 :: h1 :: rest2, false, sumWeights (h0 :: h1 :: rest2)⟩ 0 [] rfl hinv
      rw [Nat.zero_add] at invf
      rw [List.nil_append] at invf
      refine ⟨future, sf, by rw [hre]; exact hiter, ?_⟩
      exact WInv_extract (h0 :: h1 :: rest2) hne hwt sf.hosts future invf
    · -- equal weights: plain round-robin on the cursor
      have hre : refreshState (h0 :: h1 :: rest2)
          = ⟨h0 :: h1 :: rest2, true, ((0 : Nat) : Int)⟩ := by
        rw [refreshState]
        simp only [hall]
        rfl
      have hn2 : 2 ≤ (h0 :: h1 :: rest2).length := by simp
      have hweq : ∀ h ∈ h0 :: h1 :: rest2, h.weight = h0.weight := by
        intro h hmem
        rcases List.mem_cons.mp hmem with hh0 | hmem2
        · rw [hh0]
        · exact beq_iff_eq.mp (List.all_eq_true.mp hall h hmem2)
      have hwAt : ∀ i, i < (h0 :: h1 :: rest2).length
          → wAt (h0 :: h1 :: rest2) i = h0.weight := by
        intro i hi
        obtain ⟨hosti, hgi⟩ : ∃ x, (h0 :: h1 :: rest2)[i]? = some x :=
          ⟨_, List.getElem?_eq_getElem hi⟩
        rw [wAt_of_getElem hgi]
        exact hweq hosti (by rw [← List.get?_eq_getElem?] at hgi; exact List.get?_mem hgi)
      have hsw : sumWeights (h0 :: h1 :: rest2)
          = ((h0 :: h1 :: rest2).length : Int) * h0.weight := by
        rw [← sum_wAt,
          Finset.sum_congr rfl (fun i hi => hwAt i (Finset.mem_range.mp hi)),
          Finset.sum_const, Finset.card_range, nsmul_eq_mul]
      have hw0pos : 0 ≤ h0.weight := le_trans (by omega)
        (hwt h0 (List.mem_cons_self _ _))
      have hmN : (sumWeights (h0 :: h1 :: rest2)).toNat
          = (h0 :: h1 :: rest2).length * h0.weight.toNat := by
        have hcast2 : (((h0 :: h1 :: rest2).length * h0.weight.toNat : Nat) : Int)
            = sumWeights (h0 :: h1 :: rest2) := by
          push_cast
          rw [Int.toNat_of_nonneg hw0pos, hsw]
        have := congrArg Int.toNat hcast2
        rw [Int.toNat_natCast] at this
        rw [← this]
      obtain ⟨sf, hiter⟩ := wrrIter_rr (h0 :: h1 :: rest2) true hn2 rfl hh
        (sumWeights (h0 :: h1 :: rest2)).toNat 0 (by omega)
      refine ⟨(List.range (sumWeights (h0 :: h1 :: rest2)).toNat).map
        (fun x => (x + 0) % (h0 :: h1 :: rest2).length), sf,
        by rw [hre]; exact hiter, ?_⟩
      intro i hi
      have hfun : (fun x => (x + 0) % (h0 :: h1 :: rest2).length)
          = (fun x => x % (h0 :: h1 :: rest2).length) := by
        funext x
        rw [Nat.add_zero]
      rw [hfun, hmN,
        count_range_mod (h0 :: h1 :: rest2).length h0.weight.toNat i (by omega) hi,
        Int.toNat_of_nonneg hw0pos, hwAt i hi]
  · decide

/-- C4 witness: the window theorem instantiated at three healthy hosts of
weights 5, 2 and 1. -/
theorem wrr_window_distribution_witness :
    ∃ picks sf,
      wrrIter (refreshState
          [⟨"h1", 5, 0, none, 0⟩, ⟨"h2", 2, 0, none, 0⟩, ⟨"h3", 1, 0, none, 0⟩])
        (sumWeights
          [⟨"h1", 5, 0, none, 0⟩, ⟨"h2", 2, 0, none, 0⟩, ⟨"h3", 1, 0, none, 0⟩]).toNat
        = some (picks, sf) ∧
      ∀ i, i < (([⟨"h1", 5, 0, none, 0⟩, ⟨"h2", 2, 0, none, 0⟩,
          ⟨"h3", 1, 0, none, 0⟩] : List LBHost)).length →
        (picks.count i : Int)
          = wAt [⟨"h1", 5, 0, none, 0⟩, ⟨"h2", 2, 0, none, 0⟩, ⟨"h3", 1, 0, none, 0⟩] i :=
  wrr_window_distribution.1
    [⟨"h1", 5, 0, none, 0⟩, ⟨"h2", 2, 0, none, 0⟩, ⟨"h3", 1, 0, none, 0⟩]
    (by decide) (by decide) (by decide) (by decide)
